import Mathlib

set_option autoImplicit false
set_option maxRecDepth 8192

/-!
The message mempool of the FactomCode server (`server/processmempool.go`).

A shallow embedding of `ftmMemPool` and of its operations, followed by the
properties established about them.

Conventions of the embedding.

* A Go pointer or interface value that may be `nil` is an `Option`.
* A Go slice is a `Slice`: its visible elements and the remainder of its
  backing array, so that `len` and `cap` are both observable and a reslice
  beyond `len` exposes what the backing array holds.
* A Go map is a `GoMap`: an association list with one entry per key.
* A run-time panic is the `error` case of `Except Panic`; the `error` value a
  Go function returns is part of its ordinary result.
* Fields of type `uint32` are natural numbers; arithmetic on them that can
  leave the 32-bit range is reduced modulo `2 ^ 32`.
* A method is a function on the state, run without other callers in between;
  `addMissingMsg`, which gives the lock up in its middle, is also given as its
  two lock sections.
-/

namespace FactomCode

/-! ## Go run-time model -/

/-- The run-time panics the pool operations can raise. -/
inductive Panic
  | indexOutOfRange
  | sliceBoundsOutOfRange
  | nilDereference
  deriving DecidableEq, Repr

/-- A Go slice: `elems` are the `len` addressable elements, `spare` the part of
the backing array between `len` and `cap`. -/
structure Slice (α : Type) where
  elems : List α
  spare : List α
  deriving DecidableEq, Repr

namespace Slice

variable {α : Type}

/-- The value of `len(s)`. -/
def len (s : Slice α) : Nat := s.elems.length

/-- The value of `cap(s)`. -/
def cap (s : Slice α) : Nat := s.elems.length + s.spare.length

/-- The backing array of the slice, from index 0 to `cap`. -/
def backing (s : Slice α) : List α := s.elems ++ s.spare

/-- The slice `make([]*T, n, c)` for `n ≤ c`: a zeroed backing array. -/
def make (n c : Nat) : Slice (Option α) :=
  ⟨List.replicate n none, List.replicate (c - n) none⟩

/-- The reslice `s[0:n]`, which panics when `n` exceeds the capacity. -/
def reslice (s : Slice α) (n : Nat) : Except Panic (Slice α) :=
  if n ≤ s.cap then .ok ⟨s.backing.take n, s.backing.drop n⟩
  else .error .sliceBoundsOutOfRange

/-- The read `s[i]`, which panics when `i` is not below the length. -/
def index (s : Slice α) (i : Nat) : Except Panic α :=
  match s.elems[i]? with
  | some x => .ok x
  | none => .error .indexOutOfRange

/-- The write `s[i] = x`, which panics when `i` is not below the length. -/
def store (s : Slice α) (i : Nat) (x : α) : Except Panic (Slice α) :=
  if i < s.len then .ok { s with elems := s.elems.set i x }
  else .error .indexOutOfRange

/-- The builtin `copy(dst, src)`: the first `min(len(dst), len(src))` elements
of `dst` are overwritten with those of `src`. -/
def copy (dst src : Slice α) : Slice α :=
  { dst with
    elems := src.elems.take (min dst.len src.len) ++ dst.elems.drop (min dst.len src.len) }

end Slice

/-- A Go map as an association list holding one entry per key. -/
structure GoMap (κ ν : Type) where
  entries : List (κ × ν)
  deriving DecidableEq, Repr

namespace GoMap

variable {κ ν : Type} [DecidableEq κ]

/-- The map `make(map[K]V)`. -/
def empty : GoMap κ ν := ⟨[]⟩

/-- The value of `len(m)`. -/
def size (m : GoMap κ ν) : Nat := m.entries.length

/-- The two-valued read `v, ok := m[k]`. -/
def find? (m : GoMap κ ν) (k : κ) : Option ν :=
  (m.entries.find? (fun e => decide (e.1 = k))).map Prod.snd

/-- Replace the value of the first entry for `k`, or append a new entry. -/
def putEntries (k : κ) (v : ν) : List (κ × ν) → List (κ × ν)
  | [] => [(k, v)]
  | e :: rest => if e.1 = k then (k, v) :: rest else e :: putEntries k v rest

/-- The assignment `m[k] = v`. -/
def put (m : GoMap κ ν) (k : κ) (v : ν) : GoMap κ ν :=
  ⟨putEntries k v m.entries⟩

/-- The builtin `delete(m, k)`. -/
def delete (m : GoMap κ ν) (k : κ) : GoMap κ ν :=
  ⟨m.entries.filter (fun e => decide (e.1 ≠ k))⟩

/-- The read `m[k]` of a map whose values are interfaces or pointers: `nil`
when the key is missing, the stored value (possibly `nil`) otherwise. -/
def read (m : GoMap κ (Option ν)) (k : κ) : Option ν :=
  (m.find? k).join

end GoMap

/-! ## Data model -/

/-- The 32-byte value of a `wire.ShaHash` or `common.Hash`, read as a number. -/
abbrev ShaHash := Nat

/-- Modelled from the spec: the ack type codes of the `wire` package, which is
not part of the excerpt. The spec lists the five payload-bearing types, the
ten end-of-minute types and `Unknown`. -/
inductive AckType
  | Unknown
  | AckFactoidTx
  | EndMinute1 | EndMinute2 | EndMinute3 | EndMinute4 | EndMinute5
  | EndMinute6 | EndMinute7 | EndMinute8 | EndMinute9 | EndMinute10
  | AckRevealEntry
  | AckCommitChain
  | AckRevealChain
  | AckCommitEntry
  deriving DecidableEq, Repr

/-- Modelled from the spec: the closed set of command tags of `wire.Message`,
declared in the `wire` package, which is not part of the excerpt. -/
inductive Command
  | CmdCommitChain | CmdRevealChain | CmdCommitEntry | CmdRevealEntry
  | CmdFactoidTx | CmdAck | CmdEOM | CmdDirBlockSig
  | CmdDirBlock | CmdFBlock | CmdECBlock | CmdABlock | CmdEBlock
  deriving DecidableEq, Repr

/-- A non-nil `wire.Message`: its command tag, the height (or sequence number)
in the header of the block it carries when it is a block message, and the rest
of its content. -/
structure Message where
  command : Command
  height : Nat
  content : Nat
  deriving DecidableEq, Repr

/-- The target of a non-nil `*wire.MsgAck`. `ref` identifies the allocation the
pointer refers to, so that equality of two values is pointer equality, while
`Equals` compares the fields only. `Typ` is the field `Type`. -/
structure MsgAck where
  ref : Nat
  Height : Nat
  Index : Nat
  Typ : AckType
  Affirmation : Option ShaHash
  Sig : Nat
  deriving DecidableEq, Repr

/-- Modelled from the spec: `wire.MsgAck.Equals` is not part of the excerpt; two
acks are equal iff all user-visible fields match. -/
def MsgAck.Equals (a b : MsgAck) : Bool :=
  decide (a.Height = b.Height) && decide (a.Index = b.Index) && decide (a.Typ = b.Typ)
    && decide (a.Affirmation = b.Affirmation) && decide (a.Sig = b.Sig)

/-- Modelled from the spec: `wire.MsgAck.IsEomAck` is not part of the excerpt; an
ack is an EOM ack iff its type is one of `EndMinute1` to `EndMinute10`. -/
def MsgAck.IsEomAck (a : MsgAck) : Bool :=
  match a.Typ with
  | .EndMinute1 | .EndMinute2 | .EndMinute3 | .EndMinute4 | .EndMinute5
  | .EndMinute6 | .EndMinute7 | .EndMinute8 | .EndMinute9 | .EndMinute10 => true
  | _ => false

/-- The target of a `*wire.MsgMissing`: a request for a missing payload or a
missing ack. -/
structure MsgMissing where
  Height : Nat
  Index : Nat
  Typ : AckType
  IsAck : Bool
  ShaHash : ShaHash
  ReplyTo : Nat
  Sig : Nat
  deriving DecidableEq, Repr

/-- Modelled from the spec: `wire.NewMsgMissing` is not part of the excerpt; it
builds an unsigned request bearing
`(Height, Index, Type, isAckRequest, hash, nodeID)`. -/
def NewMsgMissing (height index : Nat) (typ : AckType) (isAck : Bool)
    (shaHash : ShaHash) (sourceID : Nat) : MsgMissing :=
  { Height := height, Index := index, Typ := typ, IsAck := isAck,
    ShaHash := shaHash, ReplyTo := sourceID, Sig := 0 }

/-- Modelled from the spec: the package variable `zeroBtcHash` is declared
outside the excerpt; it is the zero hash. -/
def zeroBtcHash : ShaHash := 0

/-- The target of a non-nil `*wire.MsgDirBlockSig`. -/
structure MsgDirBlockSig where
  DBHeight : Nat
  content : Nat
  deriving DecidableEq, Repr

/-- An inventory vector `wire.InvVectHeight`. -/
structure InvVectHeight where
  Typ : Nat
  Hash : ShaHash
  Height : Int
  deriving DecidableEq, Repr

/-- The target of a `*wire.MsgGetFactomData`: its inventory list. -/
structure MsgGetFactomData where
  InvList : List InvVectHeight
  deriving DecidableEq, Repr

/-- The record `reqMsg` of an outstanding pull request. -/
structure reqMsg where
  Msg : MsgGetFactomData
  TimesMissed : Nat
  Requested : Bool
  deriving DecidableEq, Repr

/-- The state of `ftmMemPool` (the lock and the unused `lastUpdated` apart). -/
structure ftmMemPool where
  pool : GoMap ShaHash (Option Message)
  orphans : GoMap ShaHash (Option Message)
  blockpool : GoMap String (Option Message)
  ackpool : Slice (Option MsgAck)
  dirBlockSigs : Slice (Option MsgDirBlockSig)
  requested : GoMap ShaHash reqMsg
  deriving DecidableEq, Repr

/-- The package-level values the pool operations read: the node identifier, the
two signing keys (each as the function from an unsigned request to its
signature) and the pool bounds of the `common` package. -/
structure Env where
  nodeID : Nat
  serverPrivKeySign : MsgMissing → Nat
  localServerPrivKeySign : MsgMissing → Nat
  MAX_TX_POOL_SIZE : Nat
  MAX_ORPHAN_SIZE : Nat
  MAX_BLK_POOL_SIZE : Nat

/-- The arguments of one call of `plMgr.AddToFollowersProcessList`. -/
structure PLItem where
  msg : Option Message
  ack : MsgAck
  hash : Option ShaHash
  deriving DecidableEq, Repr

/-! ## Operations -/

/-- The state `initFtmMemPool` builds. -/
def initFtmMemPool : ftmMemPool :=
  { pool := GoMap.empty
    orphans := GoMap.empty
    blockpool := GoMap.empty
    ackpool := Slice.make 100 200
    dirBlockSigs := Slice.make 0 32
    requested := GoMap.empty }

/-- The method `resetAckPool`. -/
def resetAckPool (mp : ftmMemPool) : ftmMemPool :=
  { mp with ackpool := Slice.make 100 200 }

/-- The method `addMsg`; the result carries the returned `error`. -/
def addMsg (env : Env) (mp : ftmMemPool) (msg : Option Message) (hash : ShaHash) :
    ftmMemPool × Option String :=
  if mp.pool.size > env.MAX_TX_POOL_SIZE then
    (mp, some "Transaction mem pool exceeds the limit.")
  else
    ({ mp with pool := mp.pool.put hash msg }, none)

/-- The growth step of `addAck` (the `if`/`else if` chain on `ack.Index` that
precedes the duplicate check), applied to the ack pool `s` and `ack.Index`. -/
def growAckpool (s : Slice (Option MsgAck)) (index : Nat) :
    Except Panic (Slice (Option MsgAck)) :=
  if index = 0 then
    .ok (Slice.make 100 200)
  else if index = s.len % 2 ^ 32 then
    s.reslice ((index + 50) % 2 ^ 32)
  else if index = s.cap % 2 ^ 32 then
    .ok (Slice.copy (Slice.make (index * 2 % 2 ^ 32) (index * 2 % 2 ^ 32)) s)
  else
    .ok s

/-- The method `addAck`. The argument is the pointer `ack`; the result is the
state left behind and the returned `*wire.MsgMissing`. -/
def addAck (env : Env) (mp : ftmMemPool) (ack : Option MsgAck) :
    Except Panic (ftmMemPool × Option MsgMissing) :=
  match ack with
  | none => .ok (mp, none)
  | some ack =>
    match growAckpool mp.ackpool ack.Index with
    | .error e => .error e
    | .ok grown =>
      match grown.index ack.Index with
      | .error e => .error e
      | .ok a =>
        if (match a with
            | some b => ack.Equals b
            | none => false) then
          .ok ({ mp with ackpool := grown }, none)
        else
          match grown.store ack.Index (some ack) with
          | .error e => .error e
          | .ok stored =>
            if ack.Typ = .AckRevealEntry ∨ ack.Typ = .AckRevealChain ∨
                ack.Typ = .AckCommitChain ∨ ack.Typ = .AckCommitEntry ∨
                ack.Typ = .AckFactoidTx then
              match ack.Affirmation with
              | none => .error .nilDereference
              | some h =>
                match mp.pool.read h with
                | none =>
                  let miss :=
                    NewMsgMissing ack.Height ack.Index ack.Typ false h env.nodeID
                  .ok ({ mp with ackpool := stored },
                    some { miss with Sig := env.serverPrivKeySign miss })
                | some _ => .ok ({ mp with ackpool := stored }, none)
            else
              .ok ({ mp with ackpool := stored }, none)

/-- The loop of `getMissingMsgAck`. The first argument is `i + 1` for the
loop variable `i`, so that `0` is the exit `i < 0`; the second is
`missingAcks`. -/
def getMissingMsgAckLoop (env : Env) (mp : ftmMemPool) (ack : MsgAck) :
    Nat → List MsgMissing → Except Panic (List MsgMissing)
  | 0, missingAcks => .ok missingAcks
  | i + 1, missingAcks =>
    match mp.ackpool.index i with
    | .error e => .error e
    | .ok none =>
      let m := NewMsgMissing ack.Height i .Unknown true zeroBtcHash env.nodeID
      getMissingMsgAckLoop env mp ack i
        (missingAcks ++ [{ m with Sig := env.localServerPrivKeySign m }])
    | .ok (some b) =>
      if b.IsEomAck then .ok missingAcks
      else getMissingMsgAckLoop env mp ack i missingAcks

/-- The method `getMissingMsgAck`, called with a non-nil `ack`. -/
def getMissingMsgAck (env : Env) (mp : ftmMemPool) (ack : MsgAck) :
    Except Panic (List MsgMissing) :=
  if ack.Index = 0 then .ok []
  else getMissingMsgAckLoop env mp ack ack.Index []

/-- The loop of `assembleFollowerProcessList` over the slots not yet visited.
The second argument is the variable `msg`, declared before the loop; the result
lists the calls of `plMgr.AddToFollowersProcessList` in order. -/
def assembleLoop (pool : GoMap ShaHash (Option Message)) :
    List (Option MsgAck) → Option Message → List PLItem
  | [], _ => []
  | none :: rest, msg => assembleLoop pool rest msg
  | some a :: rest, msg =>
    let msg1 := match a.Affirmation with
      | some h => pool.read h
      | none => msg
    if msg1 = none ∧ ¬ a.IsEomAck then
      assembleLoop pool rest msg1
    else
      let hash := if msg1 = none then none else a.Affirmation
      ⟨msg1, a, hash⟩ ::
        (if a.Typ = .EndMinute10 then [] else assembleLoop pool rest msg1)

/-- The method `assembleFollowerProcessList`, called with a non-nil `ack`. The
result is the returned `error` and the items handed to the process list
manager. -/
def assembleFollowerProcessList (mp : ftmMemPool) (ack : MsgAck) :
    Except Panic (Option String × List PLItem) :=
  if ack.Typ ≠ .EndMinute10 then
    .ok (some "the last ack has to be EndMinute10", [])
  else
    match mp.ackpool.index ack.Index with
    | .error e => .error e
    | .ok slot =>
      if slot ≠ some ack then
        .ok (some "the last ack has to be EndMinute10", [])
      else
        .ok (none, assembleLoop mp.pool mp.ackpool.elems none)


/-! ## Operations on the other pools -/

/-- The method `lenDirBlockSig`. -/
def lenDirBlockSig (mp : ftmMemPool) : Nat :=
  mp.dirBlockSigs.len

/-- The method `getDirBlockSigPool`: the addressable elements of the slice it
returns. -/
def getDirBlockSigPool (mp : ftmMemPool) : List (Option MsgDirBlockSig) :=
  mp.dirBlockSigs.elems

/-- The loop of `resetDirBlockSigPool` on the backing array shared by the local
slice `a` and by `mp.dirBlockSigs`. The first argument is `len(a) - i`, so that
`0` is the exit `i >= len(a)`; the second is `i`; the third is the backing
array. Removing slot `i` moves the slots `i + 1` to `len(a) - 1` down by one
(the `append`) and writes nil into slot `len(a) - 1`. -/
def resetDirBlockSigPoolLoop (height : Nat) :
    Nat → Nat → List (Option MsgDirBlockSig) → Except Panic (List (Option MsgDirBlockSig))
  | 0, _, backing => .ok backing
  | left + 1, i, backing =>
    match backing[i]? with
    | none => .error .indexOutOfRange
    | some none => .error .nilDereference
    | some (some sig) =>
      if sig.DBHeight ≤ height then
        resetDirBlockSigPoolLoop height left i
          (backing.take i ++ (backing.drop (i + 1)).take left ++ [none] ++
            backing.drop (i + left + 1))
      else
        resetDirBlockSigPoolLoop height left (i + 1) backing

/-- The method `resetDirBlockSigPool`. The loop works on the local slice `a`;
`mp.dirBlockSigs` is not assigned, so it keeps its length and sees the backing
array as the loop left it. -/
def resetDirBlockSigPool (mp : ftmMemPool) (height : Nat) : Except Panic ftmMemPool :=
  match resetDirBlockSigPoolLoop height mp.dirBlockSigs.len 0 mp.dirBlockSigs.backing with
  | .error e => .error e
  | .ok backing =>
    .ok { mp with
      dirBlockSigs := ⟨backing.take mp.dirBlockSigs.len, backing.drop mp.dirBlockSigs.len⟩ }

/-- The method `haveMsg`. -/
def haveMsg (mp : ftmMemPool) (hash : ShaHash) : Bool :=
  match mp.pool.read hash with
  | some _ => true
  | none => false

/-- The method `getMsg`. -/
def getMsg (mp : ftmMemPool) (hash : ShaHash) : Option Message :=
  mp.pool.read hash

/-- The method `addOrphanMsg`; the result carries the returned `error`. -/
def addOrphanMsg (env : Env) (mp : ftmMemPool) (msg : Option Message) (hash : ShaHash) :
    ftmMemPool × Option String :=
  if mp.orphans.size > env.MAX_ORPHAN_SIZE then
    (mp, some "Ophan mem pool exceeds the limit.")
  else
    ({ mp with orphans := mp.orphans.put hash msg }, none)

/-- The method `addBlockMsg`; the result carries the returned `error`. -/
def addBlockMsg (env : Env) (mp : ftmMemPool) (msg : Option Message) (hash : String) :
    ftmMemPool × Option String :=
  if mp.blockpool.size > env.MAX_BLK_POOL_SIZE then
    (mp, some "Block mem pool exceeds the limit. Please restart.")
  else
    ({ mp with blockpool := mp.blockpool.put hash msg }, none)

/-- The directory block a `wire.MsgDirBlock` carries in `DBlk`: the height in
its header and the rest of its content. -/
structure DirectoryBlock where
  DBHeight : Nat
  content : Nat
  deriving DecidableEq, Repr

/-- The field `DBlk` of a message whose command tag is `CmdDirBlock`. -/
def Message.DBlk (m : Message) : DirectoryBlock :=
  ⟨m.height, m.content⟩

/-- The method `getDirBlock`. The tag `strconv.Itoa(int(height))` is the
decimal representation of the height. -/
def getDirBlock (mp : ftmMemPool) (height : Nat) : Option DirectoryBlock :=
  match mp.blockpool.read (Nat.repr height) with
  | some msg => if msg.command = .CmdDirBlock then some msg.DBlk else none
  | none => none

/-- Modelled from the spec: the element type of the process list that
`plMgr.MyProcessList.GetPLItems()` returns is declared outside the excerpt; an
item pairs an ack and a message with the hash of the message. -/
structure ProcessListItem where
  Ack : Option MsgAck
  Msg : Option Message
  MsgHash : Option ShaHash
  deriving DecidableEq, Repr

/-- The method `cleanUpMemPool`. The second argument is the list that
`plMgr.MyProcessList.GetPLItems()` returns. -/
def cleanUpMemPool (mp : ftmMemPool) (plItems : List (Option ProcessListItem)) :
    ftmMemPool :=
  plItems.foldl
    (fun mp item =>
      match item with
      | none => mp
      | some item =>
        match item.MsgHash with
        | some hash => { mp with pool := mp.pool.delete hash }
        | none => mp)
    mp

/-- One `range` loop of `relayStaleMessages` over a map: the entries are visited
in the order `order` that the run time picks; each visit pushes the message to
`outMsgQueue` (the second component) and deletes the key. -/
def relayLoop (order : List (ShaHash × Option Message))
    (m : GoMap ShaHash (Option Message)) (out : List (Option Message)) :
    GoMap ShaHash (Option Message) × List (Option Message) :=
  order.foldl (fun st e => (st.1.delete e.1, st.2 ++ [e.2])) (m, out)

/-- The method `relayStaleMessages`. `poolOrder` and `orphanOrder` are the
orders in which the two `range` loops visit the entries of `mp.pool` and of
`mp.orphans`; the result is the state left behind and the sequence of messages
pushed to `outMsgQueue`. -/
def relayStaleMessages (mp : ftmMemPool)
    (poolOrder orphanOrder : List (ShaHash × Option Message)) :
    ftmMemPool × List (Option Message) :=
  let afterPool := relayLoop poolOrder mp.pool []
  let afterOrphans := relayLoop orphanOrder mp.orphans afterPool.2
  ({ mp with pool := afterPool.1, orphans := afterOrphans.1 }, afterOrphans.2)

/-- The method `addMissingMsg`, called with a non-nil `hash`, without
concurrent callers. The result is the state left behind and the target of the
returned `*reqMsg`. The pull request is built by `wire.NewMsgGetFactomData` and
`AddInvVectHeight`, which are outside the excerpt: it bears the one inventory
vector `{typ, hash, height}`. -/
def addMissingMsg (mp : ftmMemPool) (typ : Nat) (hash : ShaHash) (height : Nat) :
    ftmMemPool × reqMsg :=
  match mp.requested.find? hash with
  | some m =>
    let m1 := { m with TimesMissed := (m.TimesMissed + 1) % 2 ^ 32 }
    ({ mp with requested := mp.requested.put hash m1 }, m1)
  | none =>
    let req : reqMsg :=
      { Msg := ⟨[⟨typ, hash, (height : Int)⟩]⟩, TimesMissed := 1, Requested := false }
    ({ mp with requested := mp.requested.put hash req }, req)

/-- The method `removeMissingMsg`, called with a non-nil `hash`. -/
def removeMissingMsg (mp : ftmMemPool) (hash : ShaHash) : ftmMemPool :=
  match mp.requested.find? hash with
  | some _ => { mp with requested := mp.requested.delete hash }
  | none => mp

/-- The first lock section of `addMissingMsg` (between `mp.RLock()` and
`mp.RUnlock()`): the lookup of the record and, when it exists, the increment
of its counter. The result is the state left behind and the record the call
then returns, or nothing when the call goes on to build a new record. -/
def addMissingMsgLookup (mp : ftmMemPool) (hash : ShaHash) : ftmMemPool × Option reqMsg :=
  match mp.requested.find? hash with
  | some m =>
    let m1 := { m with TimesMissed := (m.TimesMissed + 1) % 2 ^ 32 }
    ({ mp with requested := mp.requested.put hash m1 }, some m1)
  | none => (mp, none)

/-- The second lock section of `addMissingMsg` (between `mp.Lock()` and
`mp.Unlock()`): the store of the record built, outside any lock, after the
lookup found nothing. -/
def addMissingMsgStore (mp : ftmMemPool) (typ : Nat) (hash : ShaHash) (height : Nat) :
    ftmMemPool × reqMsg :=
  let req : reqMsg :=
    { Msg := ⟨[⟨typ, hash, (height : Int)⟩]⟩, TimesMissed := 1, Requested := false }
  ({ mp with requested := mp.requested.put hash req }, req)

/-- Successive calls of `addMissingMsg` for one hash, one call per pair
`(typ, height)`; the result is the final state and the records returned, in
order. -/
def addMissingMsgs (mp : ftmMemPool) (hash : ShaHash) :
    List (Nat × Nat) → ftmMemPool × List reqMsg
  | [] => (mp, [])
  | (typ, height) :: rest =>
    let first := addMissingMsg mp typ hash height
    let others := addMissingMsgs first.1 hash rest
    (others.1, first.2 :: others.2)

/-! ## The invariant of the ack pool -/

/-- The invariant of the ack pool: its capacity fits in 32 bits and the part
of the backing array beyond its length holds nil pointers only. The pool that
`initFtmMemPool` and `resetAckPool` build has it, and `addAck` keeps it. -/
def AckpoolWF (s : Slice (Option MsgAck)) : Prop :=
  s.cap < 2 ^ 32 ∧ ∀ x ∈ s.spare, x = none

instance (s : Slice (Option MsgAck)) : Decidable (AckpoolWF s) := by
  unfold AckpoolWF; infer_instance

/-- The states reachable from `initFtmMemPool` through calls of `addAck` and of
`resetAckPool` that complete. -/
inductive AckReachable (env : Env) : ftmMemPool → Prop
  | init : AckReachable env initFtmMemPool
  | step (mp mp1 : ftmMemPool) (ack : Option MsgAck) (r : Option MsgMissing) :
      AckReachable env mp → addAck env mp ack = .ok (mp1, r) → AckReachable env mp1
  | reset (mp : ftmMemPool) :
      AckReachable env mp → AckReachable env (resetAckPool mp)

/-- The four shapes of the ack pool: length and capacity `(100, 200)`,
`(150, 200)`, `(200, 200)` or `(400, 400)`. -/
def AckShape (s : Slice (Option MsgAck)) : Prop :=
  (s.len = 100 ∧ s.cap = 200) ∨ (s.len = 150 ∧ s.cap = 200) ∨
  (s.len = 200 ∧ s.cap = 200) ∨ (s.len = 400 ∧ s.cap = 400)

/-- The test of `resetDirBlockSigPool` on one entry: a signature survives when
its height exceeds `height`. -/
def survives (height : Nat) (x : Option MsgDirBlockSig) : Bool :=
  match x with
  | some sig => decide (height < sig.DBHeight)
  | none => false

/-- The hashes of a process list: the `MsgHash` of every item that is present
and has one. -/
def plHashes (plItems : List (Option ProcessListItem)) : List ShaHash :=
  plItems.filterMap (fun item => item.bind (fun it => it.MsgHash))

/-! ## Sample inputs

Concrete values on which the scenarios of the specification are evaluated. -/

namespace Sample

/-- An environment: node 7, signing functions that return 1 and 2, pool bounds
of 1000. -/
def env : Env :=
  { nodeID := 7
    serverPrivKeySign := fun _ => 1
    localServerPrivKeySign := fun _ => 2
    MAX_TX_POOL_SIZE := 1000
    MAX_ORPHAN_SIZE := 1000
    MAX_BLK_POOL_SIZE := 1000 }

/-- The payload of the scenario "pair then assemble". -/
def P1 : Message := ⟨.CmdCommitEntry, 0, 11⟩

/-- The hash of `P1`. -/
def h1 : ShaHash := 101

/-- The ack of `P1`: index 0, height 5. -/
def A0 : MsgAck := ⟨1, 5, 0, .AckCommitEntry, some h1, 0⟩

/-- The end-of-minute-10 ack at index 1, height 5, without affirmation. -/
def A1 : MsgAck := ⟨2, 5, 1, .EndMinute10, none, 0⟩

/-- The hash of a payload that no pool holds. -/
def hx : ShaHash := 120

/-- The ack of the scenario "missing payload": index 0, height 7. -/
def AX : MsgAck := ⟨3, 7, 0, .AckRevealChain, some hx, 0⟩

/-- An ack at index 1. -/
def B : MsgAck := ⟨4, 5, 1, .EndMinute1, none, 0⟩

/-- Another ack at index 1, of another type. -/
def A : MsgAck := ⟨5, 5, 1, .EndMinute2, none, 0⟩

/-- An end-of-minute ack at the given index, height 5. -/
def eom (index : Nat) : MsgAck := ⟨10 + index, 5, index, .EndMinute1, none, 0⟩

/-- The freshly initialised pool with the given first slots of the ack pool. -/
def withAcks (slots : List (Option MsgAck)) : ftmMemPool :=
  { initFtmMemPool with
    ackpool := ⟨slots ++ List.replicate (100 - slots.length) none, List.replicate 100 none⟩ }

/-- The pool after `addAck` of an ack with index 200 on the freshly
initialised pool: length and capacity 400. -/
def grown400 : ftmMemPool :=
  { initFtmMemPool with
    ackpool := ⟨(List.replicate 400 none).set 200 (some (eom 200)), []⟩ }

/-- The pool after `addAck` of an ack with index 100 on the pool whose slot 1
holds `B`: length 150, capacity 200. -/
def grown150 : ftmMemPool :=
  { initFtmMemPool with
    ackpool := ⟨none :: some B :: List.replicate 98 none ++
      some (eom 100) :: List.replicate 49 none, List.replicate 50 none⟩ }

/-- The pool of the scenario "pair then assemble" before the assembly. -/
def paired : ftmMemPool :=
  { withAcks [some A0, some A1] with pool := ⟨[(h1, some P1)]⟩ }

/-- The pool of the scenario "missing ack scan": slots 0 and 3 are filled. -/
def gapped : ftmMemPool :=
  withAcks [some A0, none, none, some (eom 3)]

/-- A second payload and its hash. -/
def P2 : Message := ⟨.CmdRevealEntry, 0, 12⟩

/-- The hash of `P2`. -/
def h2 : ShaHash := 102

/-- The pool of the scenario "cleanup": `P1` and `P2` are admitted. -/
def admitted : ftmMemPool :=
  { initFtmMemPool with pool := ⟨[(h1, some P1), (h2, some P2)]⟩ }

/-- A pool with two stored messages and one orphan. -/
def stale : ftmMemPool :=
  { initFtmMemPool with
    pool := ⟨[(h1, some P1), (h2, some P2)]⟩
    orphans := ⟨[(hx, some P1)]⟩ }

/-- A pool that holds exactly `MAX_TX_POOL_SIZE` messages of `env`, under the
hashes 0 to 999. -/
def fullPool : ftmMemPool :=
  { initFtmMemPool with
    pool := ⟨(List.range 1000).map (fun i => (i, some ⟨.CmdCommitEntry, 0, i⟩))⟩ }

/-- The pool `fullPool` after the admission of `P1` under the hash 5000. -/
def overfullPool : ftmMemPool :=
  { initFtmMemPool with
    pool := ⟨(List.range 1000).map (fun i => (i, some ⟨.CmdCommitEntry, 0, i⟩)) ++
      [(5000, some P1)]⟩ }

/-- The freshly initialised pool with the given directory block signatures,
in a backing array of capacity 32. -/
def withSigs (sigs : List (Option MsgDirBlockSig)) : ftmMemPool :=
  { initFtmMemPool with
    dirBlockSigs := ⟨sigs, List.replicate (32 - sigs.length) none⟩ }

/-- The freshly initialised pool with the given block pool. -/
def withBlocks (blocks : List (String × Option Message)) : ftmMemPool :=
  { initFtmMemPool with blockpool := ⟨blocks⟩ }

end Sample

/-! ## The shape of an assembly -/

/-- The description of an assembly over the slots `l`: the slots `idxs` whose
acks were emitted as `items`, in strictly increasing order, none beyond the
first slot `k` holding an `EndMinute10` ack `e`, which is the last one. -/
def AssemblyOf (l : List (Option MsgAck)) (items : List PLItem) (idxs : List Nat) (k : Nat)
    (e : MsgAck) : Prop :=
  idxs.Pairwise (fun i j => i < j) ∧
  idxs.map (fun i => l[i]?) = items.map (fun it => some (some it.ack)) ∧
  l[k]? = some (some e) ∧ e.Typ = .EndMinute10 ∧
  (∀ (j : Nat) (b : MsgAck), j < k → l[j]? = some (some b) → b.Typ ≠ .EndMinute10) ∧
  (∀ i ∈ idxs, i ≤ k) ∧
  idxs.getLast? = some k

/-! ## Lemmas on slices and on the growth step -/

/-- A read succeeds with `x` exactly when the slot is addressable and holds `x`. -/
theorem Slice.index_ok_iff {α : Type} (s : Slice α) (i : Nat) (x : α) :
    s.index i = .ok x ↔ s.elems[i]? = some x := by
  unfold Slice.index
  cases h : s.elems[i]? <;> simp

/-- A read panics exactly when the index is not below the length. -/
theorem Slice.index_error {α : Type} (s : Slice α) (i : Nat) (e : Panic) :
    s.index i = .error e ↔ (s.len ≤ i ∧ e = .indexOutOfRange) := by
  unfold Slice.index Slice.len
  cases h : s.elems[i]? with
  | none =>
    simp only [List.getElem?_eq_none_iff] at h
    simp [h, eq_comm]
  | some x =>
    have := (List.getElem?_eq_some_iff.mp h).1
    simp
    omega

/-- The length of a made slice. -/
theorem Slice.len_make {α : Type} (n c : Nat) : (Slice.make n c : Slice (Option α)).len = n := by
  simp [Slice.make, Slice.len]

/-- The capacity of a made slice. -/
theorem Slice.cap_make {α : Type} (n c : Nat) (h : n ≤ c) :
    (Slice.make n c : Slice (Option α)).cap = c := by
  simp [Slice.make, Slice.cap]; omega

/-- Index 0 replaces the ack pool by a fresh one. -/
theorem growAckpool_zero (s : Slice (Option MsgAck)) :
    growAckpool s 0 = .ok (Slice.make 100 200) := by
  simp [growAckpool]

/-- Within the invariant, an index inside the pool triggers no growth. -/
theorem growAckpool_inside (s : Slice (Option MsgAck)) (i : Nat) (hwf : s.cap < 2 ^ 32)
    (h0 : i ≠ 0) (hi : i < s.len) : growAckpool s i = .ok s := by
  have hlc : s.len ≤ s.cap := by simp [Slice.len, Slice.cap]
  have h1 : s.len % 2 ^ 32 = s.len := Nat.mod_eq_of_lt (by omega)
  have h2 : s.cap % 2 ^ 32 = s.cap := Nat.mod_eq_of_lt hwf
  unfold growAckpool
  rw [h1, h2]
  simp only [h0, if_false]
  rw [if_neg (by omega), if_neg (by omega)]


/-- The four paths through the growth step. -/
theorem growAckpool_cases (s g : Slice (Option MsgAck)) (i : Nat)
    (h : growAckpool s i = .ok g) :
    (i = 0 ∧ g = Slice.make 100 200) ∨
    (i ≠ 0 ∧ i = s.len % 2 ^ 32 ∧ (i + 50) % 2 ^ 32 ≤ s.cap ∧
      g = ⟨s.backing.take ((i + 50) % 2 ^ 32), s.backing.drop ((i + 50) % 2 ^ 32)⟩) ∨
    (i ≠ 0 ∧ i ≠ s.len % 2 ^ 32 ∧ i = s.cap % 2 ^ 32 ∧
      g = Slice.copy (Slice.make (i * 2 % 2 ^ 32) (i * 2 % 2 ^ 32)) s) ∨
    (i ≠ 0 ∧ i ≠ s.len % 2 ^ 32 ∧ i ≠ s.cap % 2 ^ 32 ∧ g = s) := by
  unfold growAckpool at h
  by_cases h0 : i = 0
  · left
    rw [if_pos h0] at h
    exact ⟨h0, (Except.ok.inj h).symm⟩
  · right
    rw [if_neg h0] at h
    by_cases h1 : i = s.len % 2 ^ 32
    · left
      rw [if_pos h1] at h
      unfold Slice.reslice at h
      by_cases h2 : (i + 50) % 2 ^ 32 ≤ s.cap
      · rw [if_pos h2] at h
        exact ⟨h0, h1, h2, (Except.ok.inj h).symm⟩
      · rw [if_neg h2] at h
        cases h
    · right
      rw [if_neg h1] at h
      by_cases h2 : i = s.cap % 2 ^ 32
      · left
        rw [if_pos h2] at h
        exact ⟨h0, h1, h2, (Except.ok.inj h).symm⟩
      · right
        rw [if_neg h2] at h
        exact ⟨h0, h1, h2, (Except.ok.inj h).symm⟩

/-- Growth keeps every slot that stays addressable at its index. -/
theorem growAckpool_preserves (s g : Slice (Option MsgAck)) (i j : Nat)
    (h : growAckpool s i = .ok g) (h0 : i ≠ 0) (hj : j < s.len) (hjg : j < g.len) :
    g.elems[j]? = s.elems[j]? := by
  rcases growAckpool_cases s g i h with ⟨h0', _⟩ | ⟨_, _, _, hg⟩ | ⟨_, _, _, hg⟩ | ⟨_, _, _, hg⟩
  · exact absurd h0' h0
  · subst hg
    simp only [Slice.len, List.length_take, Slice.backing] at hjg hj ⊢
    rw [List.getElem?_take_of_lt (by omega), List.getElem?_append_left hj]
  · subst hg
    simp only [Slice.copy, Slice.len, Slice.make, List.length_append, List.length_take,
      List.length_drop, List.length_replicate] at hjg hj ⊢
    rw [List.getElem?_append_left (by simp only [List.length_take]; omega),
      List.getElem?_take_of_lt (by omega)]
  · subst hg; rfl

/-- Within the invariant, a growth step after which `index` is addressable does
not shorten the pool. -/
theorem growAckpool_len_le (s g : Slice (Option MsgAck)) (i : Nat)
    (h : growAckpool s i = .ok g) (h0 : i ≠ 0) (hcap : s.cap < 2 ^ 32) (hi : i < g.len) :
    s.len ≤ g.len := by
  have hlc : s.len ≤ s.cap := by simp [Slice.len, Slice.cap]
  have h1 : s.len % 2 ^ 32 = s.len := Nat.mod_eq_of_lt (by omega)
  have h2 : s.cap % 2 ^ 32 = s.cap := Nat.mod_eq_of_lt hcap
  rcases growAckpool_cases s g i h with ⟨h0', _⟩ | ⟨_, hl, hc, hg⟩ | ⟨_, _, hc, hg⟩ | ⟨_, _, _, hg⟩
  · exact absurd h0' h0
  · subst hg
    simp only [Slice.len, List.length_take, Slice.backing, List.length_append] at hi h1 hl ⊢
    omega
  · subst hg
    simp only [Slice.copy, Slice.len, Slice.make, List.length_append, List.length_take,
      List.length_drop, List.length_replicate] at hi hlc h2 hc ⊢
    omega
  · subst hg; exact le_refl _

/-- Within the invariant, the slots a growth step makes addressable are nil. -/
theorem growAckpool_fresh (s g : Slice (Option MsgAck)) (i j : Nat)
    (h : growAckpool s i = .ok g) (h0 : i ≠ 0) (hwf : AckpoolWF s) (hi : i < g.len)
    (hj : s.len ≤ j) (hjg : j < g.len) : g.elems[j]? = some none := by
  have hlen := growAckpool_len_le s g i h h0 hwf.1 hi
  rcases growAckpool_cases s g i h with ⟨h0', _⟩ | ⟨_, hl, hc, hg⟩ | ⟨_, _, hc, hg⟩ | ⟨_, _, _, hg⟩
  · exact absurd h0' h0
  · subst hg
    simp only [Slice.len, List.length_take, Slice.backing, List.length_append] at hjg hj hlen ⊢
    rw [List.getElem?_take_of_lt (by omega), List.getElem?_append_right hj]
    have hlt : j - s.elems.length < s.spare.length := by omega
    rw [List.getElem?_eq_getElem hlt]
    exact congrArg some (hwf.2 _ (List.getElem_mem hlt))
  · subst hg
    simp only [Slice.copy, Slice.len, Slice.make, List.length_append, List.length_take,
      List.length_drop, List.length_replicate] at hjg hj hlen ⊢
    rw [List.getElem?_append_right (by simp only [List.length_take]; omega)]
    simp only [List.length_take, List.getElem?_drop, List.getElem?_replicate]
    rw [if_pos (by omega)]
  · subst hg
    simp only [Slice.len] at hj hjg
    omega

/-- The growth step preserves the invariant of the ack pool. -/
theorem growAckpool_wf (s g : Slice (Option MsgAck)) (i : Nat)
    (h : growAckpool s i = .ok g) (hwf : AckpoolWF s) (hi : i < g.len) : AckpoolWF g := by
  have hlc : s.len ≤ s.cap := by simp [Slice.len, Slice.cap]
  have h1 : s.len % 2 ^ 32 = s.len := Nat.mod_eq_of_lt (by have := hwf.1; omega)
  rcases growAckpool_cases s g i h with ⟨_, hg⟩ | ⟨_, hl, hc, hg⟩ | ⟨_, _, hc, hg⟩ | ⟨_, _, _, hg⟩
  · subst hg
    refine ⟨by simp [Slice.make, Slice.cap], ?_⟩
    intro x hx
    simp only [Slice.make] at hx
    exact List.eq_of_mem_replicate hx
  · subst hg
    refine ⟨?_, ?_⟩
    · have := hwf.1
      simp only [Slice.cap, Slice.backing, List.length_take, List.length_drop,
        List.length_append] at this hc ⊢
      omega
    · intro x hx
      simp only [Slice.len, Slice.backing, List.length_take, List.length_append] at hx hi hl h1
      rw [List.drop_append_eq_append_drop, List.drop_of_length_le (by omega),
        List.nil_append] at hx
      exact hwf.2 x (List.mem_of_mem_drop hx)
  · subst hg
    refine ⟨?_, ?_⟩
    · simp only [Slice.cap, Slice.copy, Slice.make, Slice.len, List.length_append,
        List.length_take, List.length_drop, List.length_replicate]
      have : i * 2 % 2 ^ 32 < 2 ^ 32 := Nat.mod_lt _ (by norm_num)
      omega
    · intro x hx
      simp only [Slice.copy, Slice.make] at hx
      exact List.eq_of_mem_replicate hx
  · subst hg; exact hwf


/-- The type test of `addAck`, as membership in the list of payload-bearing
ack types. -/
theorem payload_type_iff (t : AckType) :
    (t = .AckRevealEntry ∨ t = .AckRevealChain ∨ t = .AckCommitChain ∨
      t = .AckCommitEntry ∨ t = .AckFactoidTx) ↔
    t ∈ [AckType.AckCommitChain, .AckRevealChain, .AckCommitEntry, .AckRevealEntry,
      .AckFactoidTx] := by
  cases t <;> simp

/-- What a completed `addAck` did: the pool after the growth step `g`, the
incumbent `a` of the slot, and then either the suppression of a duplicate or
the store followed by the payload lookup. -/
theorem addAck_ok_cases (env : Env) (mp mp' : ftmMemPool) (A : MsgAck)
    (r : Option MsgMissing) (h : addAck env mp (some A) = .ok (mp', r)) :
    ∃ g a, growAckpool mp.ackpool A.Index = .ok g ∧ g.elems[A.Index]? = some a ∧
      (((∃ b, a = some b ∧ A.Equals b = true) ∧ mp' = { mp with ackpool := g } ∧ r = none) ∨
       ((∀ b, a = some b → A.Equals b = false) ∧
        mp' = { mp with ackpool := { g with elems := g.elems.set A.Index (some A) } } ∧
        ((A.Typ ∉ [AckType.AckCommitChain, .AckRevealChain, .AckCommitEntry,
            .AckRevealEntry, .AckFactoidTx] ∧ r = none) ∨
         (A.Typ ∈ [AckType.AckCommitChain, .AckRevealChain, .AckCommitEntry,
            .AckRevealEntry, .AckFactoidTx] ∧
          ∃ hash, A.Affirmation = some hash ∧
            ((mp.pool.read hash = none ∧
              r = some { NewMsgMissing A.Height A.Index A.Typ false hash env.nodeID with
                Sig := env.serverPrivKeySign
                  (NewMsgMissing A.Height A.Index A.Typ false hash env.nodeID) }) ∨
             (mp.pool.read hash ≠ none ∧ r = none)))))) := by
  unfold addAck at h
  simp only at h
  cases hg : growAckpool mp.ackpool A.Index with
  | error e => rw [hg] at h; cases h
  | ok g =>
    rw [hg] at h
    simp only at h
    cases hidx : g.index A.Index with
    | error e => rw [hidx] at h; cases h
    | ok a =>
      rw [hidx] at h
      simp only at h
      have ha : g.elems[A.Index]? = some a := (Slice.index_ok_iff g A.Index a).mp hidx
      have hlt : A.Index < g.len := (List.getElem?_eq_some_iff.mp ha).1
      refine ⟨g, a, rfl, ha, ?_⟩
      split at h
      · rename_i hdup
        left
        cases a with
        | none => simp at hdup
        | some b =>
          simp only at hdup
          have := Except.ok.inj h
          simp only [Prod.mk.injEq] at this
          exact ⟨⟨b, rfl, hdup⟩, this.1.symm, this.2.symm⟩
      · rename_i hdup
        right
        have hne : ∀ b, a = some b → A.Equals b = false := by
          intro b hb
          subst hb
          simpa using hdup
        refine ⟨hne, ?_⟩
        unfold Slice.store at h
        rw [if_pos hlt] at h
        simp only at h
        by_cases hty0 : (A.Typ = .AckRevealEntry ∨ A.Typ = .AckRevealChain ∨
            A.Typ = .AckCommitChain ∨ A.Typ = .AckCommitEntry ∨ A.Typ = .AckFactoidTx)
        · rw [if_pos hty0] at h
          have hty := (payload_type_iff A.Typ).mp hty0
          cases haff : A.Affirmation with
          | none => rw [haff] at h; cases h
          | some hash =>
            rw [haff] at h
            simp only at h
            cases hrd : mp.pool.read hash with
            | none =>
              rw [hrd] at h
              have := Except.ok.inj h
              simp only [Prod.mk.injEq] at this
              exact ⟨this.1.symm, Or.inr ⟨hty, hash, rfl, Or.inl ⟨hrd, this.2.symm⟩⟩⟩
            | some m =>
              rw [hrd] at h
              have := Except.ok.inj h
              simp only [Prod.mk.injEq] at this
              exact ⟨this.1.symm, Or.inr ⟨hty, hash, rfl, Or.inr ⟨by rw [hrd]; simp, this.2.symm⟩⟩⟩
        · rw [if_neg hty0] at h
          have hty := fun hm => hty0 ((payload_type_iff A.Typ).mpr hm)
          have := Except.ok.inj h
          simp only [Prod.mk.injEq] at this
          exact ⟨this.1.symm, Or.inl ⟨hty, this.2.symm⟩⟩


/-- An ack equals itself. -/
theorem MsgAck.Equals_refl (a : MsgAck) : a.Equals a = true := by
  simp [MsgAck.Equals]

/-- The duplicate path of `addAck`: the incumbent of the slot equals the ack. -/
theorem addAck_duplicate (env : Env) (mp : ftmMemPool) (A b : MsgAck)
    (g : Slice (Option MsgAck)) (hg : growAckpool mp.ackpool A.Index = .ok g)
    (ha : g.elems[A.Index]? = some (some b)) (heq : A.Equals b = true) :
    addAck env mp (some A) = .ok ({ mp with ackpool := g }, none) := by
  unfold addAck
  simp only [hg, (Slice.index_ok_iff g A.Index (some b)).mpr ha, heq, if_true]

/-- The store path of `addAck`, for an ack whose type bears no payload. -/
theorem addAck_store_plain (env : Env) (mp : ftmMemPool) (A : MsgAck)
    (g : Slice (Option MsgAck)) (a : Option MsgAck)
    (hg : growAckpool mp.ackpool A.Index = .ok g) (ha : g.elems[A.Index]? = some a)
    (hne : ∀ b, a = some b → A.Equals b = false)
    (hty : A.Typ ∉ [AckType.AckCommitChain, .AckRevealChain, .AckCommitEntry,
      .AckRevealEntry, .AckFactoidTx]) :
    addAck env mp (some A) =
      .ok ({ mp with ackpool := { g with elems := g.elems.set A.Index (some A) } }, none) := by
  have hlt : A.Index < g.len := (List.getElem?_eq_some_iff.mp ha).1
  have hty0 := fun hd => hty ((payload_type_iff A.Typ).mp hd)
  unfold addAck
  simp only [hg, (Slice.index_ok_iff g A.Index a).mpr ha]
  cases a with
  | none =>
    simp only [Bool.false_eq_true, if_false, Slice.store, if_pos hlt, if_neg hty0]
  | some b =>
    simp only [hne b rfl, Bool.false_eq_true, if_false, Slice.store, if_pos hlt, if_neg hty0]

/-- The store path of `addAck`, for an ack of a payload-bearing type that
carries an affirmation. -/
theorem addAck_store_payload (env : Env) (mp : ftmMemPool) (A : MsgAck)
    (g : Slice (Option MsgAck)) (a : Option MsgAck) (hash : ShaHash)
    (hg : growAckpool mp.ackpool A.Index = .ok g) (ha : g.elems[A.Index]? = some a)
    (hne : ∀ b, a = some b → A.Equals b = false)
    (hty : A.Typ ∈ [AckType.AckCommitChain, .AckRevealChain, .AckCommitEntry,
      .AckRevealEntry, .AckFactoidTx])
    (haff : A.Affirmation = some hash) :
    addAck env mp (some A) =
      .ok ({ mp with ackpool := { g with elems := g.elems.set A.Index (some A) } },
        match mp.pool.read hash with
        | none => some { NewMsgMissing A.Height A.Index A.Typ false hash env.nodeID with
            Sig := env.serverPrivKeySign
              (NewMsgMissing A.Height A.Index A.Typ false hash env.nodeID) }
        | some _ => none) := by
  have hlt : A.Index < g.len := (List.getElem?_eq_some_iff.mp ha).1
  have hty0 := (payload_type_iff A.Typ).mpr hty
  unfold addAck
  simp only [hg, (Slice.index_ok_iff g A.Index a).mpr ha]
  cases a with
  | none =>
    simp only [Bool.false_eq_true, if_false, Slice.store, if_pos hlt, if_pos hty0, haff]
    cases mp.pool.read hash <;> rfl
  | some b =>
    simp only [hne b rfl, Bool.false_eq_true, if_false, Slice.store, if_pos hlt, if_pos hty0,
      haff]
    cases mp.pool.read hash <;> rfl

/-- An ack with index 0 sees a fresh pool whatever the ack pool held. -/
theorem addAck_index_zero_congr (env : Env) (mp : ftmMemPool) (A : MsgAck)
    (s : Slice (Option MsgAck)) (h0 : A.Index = 0) :
    addAck env { mp with ackpool := s } (some A) = addAck env mp (some A) := by
  unfold addAck
  simp only [h0, growAckpool_zero]

/-- A completed `addAck` keeps the invariant of the ack pool. -/
theorem addAck_wf (env : Env) (mp mp' : ftmMemPool) (A : MsgAck) (r : Option MsgMissing)
    (hwf : AckpoolWF mp.ackpool) (h : addAck env mp (some A) = .ok (mp', r)) :
    AckpoolWF mp'.ackpool := by
  obtain ⟨g, a, hg, ha, hcase⟩ := addAck_ok_cases env mp mp' A r h
  have hltg : A.Index < g.len := (List.getElem?_eq_some_iff.mp ha).1
  have hgwf := growAckpool_wf mp.ackpool g A.Index hg hwf hltg
  rcases hcase with ⟨_, hmp, _⟩ | ⟨_, hmp, _⟩
  · rw [hmp]; exact hgwf
  · rw [hmp]
    exact ⟨by simpa [Slice.cap] using hgwf.1, hgwf.2⟩

/-- The pool built by `initFtmMemPool` and by `resetAckPool` has the invariant. -/
theorem initFtmMemPool_wf : AckpoolWF initFtmMemPool.ackpool ∧
    ∀ mp, AckpoolWF (resetAckPool mp).ackpool := by
  have hm : AckpoolWF (Slice.make 100 200) := by
    refine ⟨by simp [Slice.make, Slice.cap], ?_⟩
    intro x hx
    exact List.eq_of_mem_replicate hx
  exact ⟨hm, fun _ => hm⟩

/-- An index that is none of 0, the length and the capacity, and is not below
the length, makes `addAck` panic at the read of the slot. -/
theorem addAck_panics_outside (env : Env) (mp : ftmMemPool) (A : MsgAck)
    (h0 : A.Index ≠ 0) (hl : A.Index ≠ mp.ackpool.len % 2 ^ 32)
    (hc : A.Index ≠ mp.ackpool.cap % 2 ^ 32) (hi : mp.ackpool.len ≤ A.Index) :
    addAck env mp (some A) = .error .indexOutOfRange := by
  have hg : growAckpool mp.ackpool A.Index = .ok mp.ackpool := by
    unfold growAckpool
    rw [if_neg h0, if_neg hl, if_neg hc]
  have hidx : mp.ackpool.index A.Index = .error .indexOutOfRange :=
    (Slice.index_error _ _ _).mpr ⟨hi, rfl⟩
  unfold addAck
  simp only [hg, hidx]

/-- An index equal to the length of a pool that has no spare capacity makes
`addAck` panic at the reslice. -/
theorem addAck_panics_full (env : Env) (mp : ftmMemPool) (A : MsgAck)
    (h0 : A.Index ≠ 0) (hl : A.Index = mp.ackpool.len) (hc : mp.ackpool.cap = mp.ackpool.len)
    (h32 : A.Index + 50 < 2 ^ 32) :
    addAck env mp (some A) = .error .sliceBoundsOutOfRange := by
  have hl2 : A.Index = mp.ackpool.len % 2 ^ 32 := by
    rw [Nat.mod_eq_of_lt (by omega)]
    exact hl
  have hg : growAckpool mp.ackpool A.Index = .error .sliceBoundsOutOfRange := by
    unfold growAckpool
    rw [if_neg h0, if_pos hl2]
    unfold Slice.reslice
    rw [Nat.mod_eq_of_lt h32, if_neg (by omega)]
  unfold addAck
  simp only [hg]

/-! ## Lemmas on the missing-ack scan and on the assembly -/

/-- The loop of the scan, started below a slot `n` that lies above the previous
EOM slot `p`, appends the requests for the absent slots between `p` and `n`,
highest slot first. -/
theorem getMissingMsgAckLoop_eq (env : Env) (mp : ftmMemPool) (E : MsgAck) (p : Int) :
    ∀ (n : Nat) (acc : List MsgMissing), n ≤ mp.ackpool.len → p < n →
      (p = -1 ∨ (0 ≤ p ∧ ∃ b, mp.ackpool.elems[p.toNat]? = some (some b) ∧ b.IsEomAck = true)) →
      (∀ j : Nat, p < j → j < n → ∀ b, mp.ackpool.elems[j]? = some (some b) →
        b.IsEomAck = false) →
      getMissingMsgAckLoop env mp E n acc =
        .ok (acc ++ (((List.range n).reverse.filter
          (fun (i : Nat) => decide (p < (i : Int)) && decide (mp.ackpool.elems[i]? = some none))).map
          (fun (i : Nat) => { NewMsgMissing E.Height i .Unknown true zeroBtcHash env.nodeID with
            Sig := env.localServerPrivKeySign
              (NewMsgMissing E.Height i .Unknown true zeroBtcHash env.nodeID) }))) := by
  intro n
  induction n with
  | zero =>
    intro acc _ _ _ _
    simp [getMissingMsgAckLoop]
  | succ n ih =>
    intro acc hn hp hpe hmax
    have hlt : n < mp.ackpool.elems.length := by simp only [Slice.len] at hn; omega
    have hidx : mp.ackpool.index n = .ok mp.ackpool.elems[n] :=
      (Slice.index_ok_iff _ _ _).mpr (List.getElem?_eq_getElem hlt)
    have hget : mp.ackpool.elems[n]? = some mp.ackpool.elems[n] := List.getElem?_eq_getElem hlt
    have hmax' : ∀ j : Nat, p < j → j < n → ∀ b, mp.ackpool.elems[j]? = some (some b) →
        b.IsEomAck = false := fun j h1 h2 => hmax j h1 (by omega)
    rw [List.range_succ, List.reverse_append, List.reverse_singleton, List.singleton_append,
      List.filter_cons]
    unfold getMissingMsgAckLoop
    rw [hidx]
    cases hs : mp.ackpool.elems[n] with
    | none =>
      rw [hs] at hget
      have hpn : p < n := by
        rcases hpe with h | ⟨h0, b, hb, _⟩
        · omega
        · by_contra hc
          have : p.toNat = n := by omega
          rw [this, hget] at hb
          cases hb
      simp only
      rw [ih _ (by omega) hpn hpe hmax']
      simp [hpn, hget]
    | some b =>
      rw [hs] at hget
      simp only
      by_cases heom : b.IsEomAck = true
      · rw [if_pos heom]
        have hpn : p = n := by
          by_contra hc
          have hlt2 : p < n := by omega
          have := hmax n hlt2 (by omega) b hget
          rw [this] at heom
          cases heom
        have hfil : (List.range n).reverse.filter
            (fun (i : Nat) => decide (p < (i : Int)) && decide (mp.ackpool.elems[i]? = some none)) = [] := by
          rw [List.filter_eq_nil_iff]
          intro i hi
          have : i < n := by simpa using hi
          simp only [Bool.and_eq_true, decide_eq_true_eq, not_and]
          intro h1
          omega
        simp [hget, hfil]
      · rw [if_neg heom]
        have hpn : p < n := by
          rcases hpe with h | ⟨h0, b', hb, hbe⟩
          · omega
          · by_contra hc
            have : p.toNat = n := by omega
            rw [this, hget] at hb
            cases hb
            exact heom hbe
        rw [ih _ (by omega) hpn hpe hmax']
        simp [hget]

/-- An `EndMinute10` ack is an EOM ack. -/
theorem MsgAck.IsEomAck_of_EndMinute10 (a : MsgAck) (h : a.Typ = .EndMinute10) :
    a.IsEomAck = true := by
  simp [MsgAck.IsEomAck, h]

/-- A slot that emits nothing and holds no `EndMinute10` ack shifts the
description of the assembly by one. -/
theorem AssemblyOf.skip (x : Option MsgAck) (rest : List (Option MsgAck))
    (items : List PLItem) (idxs : List Nat) (k : Nat) (e : MsgAck)
    (hx : ∀ b, x = some b → b.Typ ≠ .EndMinute10)
    (h : AssemblyOf rest items idxs k e) :
    AssemblyOf (x :: rest) items (idxs.map (· + 1)) (k + 1) e := by
  obtain ⟨hpw, hmap, hk, he, hfirst, hle, hlast⟩ := h
  refine ⟨?_, ?_, ?_, he, ?_, ?_, ?_⟩
  · rw [List.pairwise_map]
    exact hpw.imp (fun h => by omega)
  · rw [List.map_map, ← hmap]
    apply List.map_congr_left
    intro i _
    simp
  · simpa using hk
  · intro j b hj hb
    cases j with
    | zero =>
      simp only [List.getElem?_cons_zero, Option.some.injEq] at hb
      exact hx b hb
    | succ j =>
      simp only [List.getElem?_cons_succ] at hb
      exact hfirst j b (by omega) hb
  · intro i hi
    obtain ⟨i', hi', rfl⟩ := List.mem_map.mp hi
    have := hle i' hi'
    omega
  · rw [List.getLast?_map, hlast]
    rfl

/-- A slot that emits its ack and is not the terminal one extends the
description of the assembly at the front. -/
theorem AssemblyOf.emit (a : MsgAck) (rest : List (Option MsgAck)) (it : PLItem)
    (items : List PLItem) (idxs : List Nat) (k : Nat) (e : MsgAck)
    (hit : it.ack = a) (ha : a.Typ ≠ .EndMinute10)
    (h : AssemblyOf rest items idxs k e) :
    AssemblyOf (some a :: rest) (it :: items) (0 :: idxs.map (· + 1)) (k + 1) e := by
  have hs := AssemblyOf.skip (some a) rest items idxs k e
    (fun b hb => by cases hb; exact ha) h
  obtain ⟨hpw, hmap, hk, he, hfirst, hle, hlast⟩ := hs
  refine ⟨?_, ?_, hk, he, hfirst, ?_, ?_⟩
  · rw [List.pairwise_cons]
    refine ⟨?_, hpw⟩
    intro i hi
    obtain ⟨i', _, rfl⟩ := List.mem_map.mp hi
    omega
  · simp only [List.map_cons, List.getElem?_cons_zero, hit]
    rw [hmap]
  · intro i hi
    rcases List.mem_cons.mp hi with h0 | hi'
    · omega
    · exact hle i hi'
  · rw [List.getLast?_cons, hlast]
    rfl

/-- The loop of the assembly, run over slots that hold an `EndMinute10` ack
somewhere, emits along strictly increasing slots up to the first such ack. -/
theorem assembleLoop_spec (pool : GoMap ShaHash (Option Message)) :
    ∀ (l : List (Option MsgAck)) (msg : Option Message),
      (∃ (j : Nat) (e : MsgAck), l[j]? = some (some e) ∧ e.Typ = .EndMinute10) →
      ∃ (idxs : List Nat) (k : Nat) (e : MsgAck), AssemblyOf l (assembleLoop pool l msg) idxs k e := by
  intro l
  induction l with
  | nil =>
    rintro msg ⟨j, e, hj, _⟩
    simp at hj
  | cons x rest ih =>
    rintro msg ⟨j, e, hj, he⟩
    cases x with
    | none =>
      have hrest : ∃ (j : Nat) (e : MsgAck), rest[j]? = some (some e) ∧ e.Typ = .EndMinute10 := by
        cases j with
        | zero => simp at hj
        | succ j => exact ⟨j, e, by simpa using hj, he⟩
      obtain ⟨idxs, k, e', h⟩ := ih msg hrest
      refine ⟨idxs.map (· + 1), k + 1, e', ?_⟩
      have := AssemblyOf.skip none rest _ idxs k e' (fun b hb => by cases hb) h
      simpa [assembleLoop] using this
    | some a =>
      by_cases hty : a.Typ = .EndMinute10
      · refine ⟨[0], 0, a, ?_⟩
        have heom := MsgAck.IsEomAck_of_EndMinute10 a hty
        unfold assembleLoop
        simp only [heom, not_true_eq_false, and_false, if_false, hty, if_true]
        refine ⟨List.pairwise_singleton _ _, by simp, by simp, hty, ?_, by simp, by simp⟩
        intro j b hj
        omega
      · have hrest : ∃ (j : Nat) (e : MsgAck), rest[j]? = some (some e) ∧ e.Typ = .EndMinute10 := by
          cases j with
          | zero =>
            simp only [List.getElem?_cons_zero, Option.some.injEq] at hj
            cases hj
            exact absurd he hty
          | succ j => exact ⟨j, e, by simpa using hj, he⟩
        unfold assembleLoop
        simp only [hty, if_false]
        split
        · obtain ⟨idxs, k, e', h⟩ := ih _ hrest
          exact ⟨_, _, _, AssemblyOf.skip (some a) rest _ idxs k e'
            (fun b hb => by cases hb; exact hty) h⟩
        · obtain ⟨idxs, k, e', h⟩ := ih _ hrest
          exact ⟨_, _, _, AssemblyOf.emit a rest _ _ idxs k e' rfl hty h⟩


/-! ## Claims on `assembleFollowerProcessList` and on the growth of the ack pool -/

/-- Claim C1, evaluated on the scenario "pair then assemble": after `P1` is
admitted under `h1` and the acks `A0` (index 0, `AckCommitEntry`, affirmation
`h1`) and `A1` (index 1, `EndMinute10`, no affirmation) are ingested, the
assembly with `A1` hands over `(P1, A0, h1)` and then `(P1, A1, absent)`: the
item of `A1` carries the payload left in `msg` by the slot before it, not an
absent payload. -/
theorem assembleFollowerProcessList_stale_payload (env : Env) :
    ∃ s1 s2 s3,
      addMsg env initFtmMemPool (some Sample.P1) Sample.h1 = (s1, none) ∧
      addAck env s1 (some Sample.A0) = .ok (s2, none) ∧
      addAck env s2 (some Sample.A1) = .ok (s3, none) ∧
      assembleFollowerProcessList s3 Sample.A1 =
        .ok (none,
          [⟨some Sample.P1, Sample.A0, some Sample.h1⟩,
           ⟨some Sample.P1, Sample.A1, none⟩]) :=
  ⟨_, _, _, rfl, rfl, rfl, rfl⟩

/-- Claim C2, evaluated at its own example: on the freshly initialised pool
(length 100, capacity 200) `addAck` of an ack with index 150 and a present
affirmation does not complete; the read of slot 150 panics with an index out
of range. -/
theorem addAck_index_150_panics (env : Env) :
    addAck env initFtmMemPool (some ⟨1, 5, 150, .AckCommitEntry, some Sample.h1, 0⟩) =
      .error .indexOutOfRange :=
  rfl

/-- Claim C3, evaluated on its sequence: from the initial shape, the acks with
indices 99, 100, 149, 150 and 199 are ingested and leave the lengths 100, 150,
150, 200 and 200; the pool is then full (length and capacity 200) and the ack
with index 200 makes `addAck` panic at the reslice to 250 instead of doubling
the pool to 400. -/
theorem addAck_growth_sequence_panics_at_200 (env : Env) :
    ∃ s1 s2 s3 s4 s5,
      addAck env initFtmMemPool (some (Sample.eom 99)) = .ok (s1, none) ∧
      s1.ackpool.len = 100 ∧
      addAck env s1 (some (Sample.eom 100)) = .ok (s2, none) ∧
      s2.ackpool.len = 150 ∧
      addAck env s2 (some (Sample.eom 149)) = .ok (s3, none) ∧
      s3.ackpool.len = 150 ∧
      addAck env s3 (some (Sample.eom 150)) = .ok (s4, none) ∧
      s4.ackpool.len = 200 ∧
      addAck env s4 (some (Sample.eom 199)) = .ok (s5, none) ∧
      s5.ackpool.len = 200 ∧ s5.ackpool.cap = 200 ∧
      addAck env s5 (some (Sample.eom 200)) = .error .sliceBoundsOutOfRange :=
  ⟨_, _, _, _, _, rfl, rfl, rfl, rfl, rfl, rfl, rfl, rfl, rfl, rfl, rfl, rfl⟩

/-! ## Claims on the slot written by `addAck` -/

/-- Claim C4 fails as stated: slot 1 holds the ack `B`, the ack `A` has index 1
and does not equal `B`, and after `addAck` of `A` slot 1 holds `A`, not `B`;
the call returns no error. -/
theorem addAck_conflict_not_rejected :
    (Sample.withAcks [none, some Sample.B]).ackpool.elems[1]? = some (some Sample.B) ∧
    Sample.A.Index = 1 ∧ Sample.A.Equals Sample.B = false ∧
    addAck Sample.env (Sample.withAcks [none, some Sample.B]) (some Sample.A) =
      .ok (Sample.withAcks [none, some Sample.A], none) ∧
    (Sample.withAcks [none, some Sample.A]).ackpool.elems[1]? ≠ some (some Sample.B) :=
  ⟨rfl, rfl, rfl, rfl, by decide⟩

/-- Claim C4 as amended: when slot `A.Index` (not 0, in range) holds an ack `B`
that `A` does not equal, `addAck` of `A` does not reject `A`: whenever the call
completes, the slot holds `A` afterwards; and the call completes when the
capacity of the pool is below `2 ^ 32` and `A` carries an affirmation if its
type bears a payload. -/
theorem addAck_conflict_overwrites (env : Env) (mp : ftmMemPool) (A B : MsgAck)
    (h0 : A.Index ≠ 0) (hslot : mp.ackpool.elems[A.Index]? = some (some B))
    (hne : A.Equals B = false) :
    (∀ mp' r, addAck env mp (some A) = .ok (mp', r) →
      mp'.ackpool.elems[A.Index]? = some (some A)) ∧
    (mp.ackpool.cap < 2 ^ 32 →
      (A.Typ ∈ [AckType.AckCommitChain, .AckRevealChain, .AckCommitEntry, .AckRevealEntry,
        .AckFactoidTx] → A.Affirmation ≠ none) →
      ∃ mp' r, addAck env mp (some A) = .ok (mp', r)) := by
  have hlt : A.Index < mp.ackpool.len := (List.getElem?_eq_some_iff.mp hslot).1
  constructor
  · intro mp' r h
    obtain ⟨g, a, hg, ha, hcase⟩ := addAck_ok_cases env mp mp' A r h
    have hltg : A.Index < g.len := (List.getElem?_eq_some_iff.mp ha).1
    have hkeep := growAckpool_preserves mp.ackpool g A.Index A.Index hg h0 hlt hltg
    rw [ha, hslot] at hkeep
    have haB : a = some B := Option.some.inj hkeep
    rcases hcase with ⟨⟨b, hb, heq⟩, _, _⟩ | ⟨_, hmp, _⟩
    · rw [haB] at hb
      cases hb
      rw [hne] at heq
      cases heq
    · subst hmp
      simp only [Slice.len] at hltg
      simp [List.getElem?_set_self, hltg]
  · intro hcap haff
    have hg := growAckpool_inside mp.ackpool A.Index hcap h0 hlt
    have hneB : ∀ b, some B = some b → A.Equals b = false := by
      intro b hb
      cases hb
      exact hne
    by_cases hty : A.Typ ∈ [AckType.AckCommitChain, .AckRevealChain, .AckCommitEntry,
        .AckRevealEntry, .AckFactoidTx]
    · cases hA : A.Affirmation with
      | none => exact absurd hA (haff hty)
      | some hash =>
        exact ⟨_, _, addAck_store_payload env mp A mp.ackpool (some B) hash hg hslot hneB hty hA⟩
    · exact ⟨_, _, addAck_store_plain env mp A mp.ackpool (some B) hg hslot hneB hty⟩

/-- The amended claim C4 at the pool whose slot 1 holds `B`, for the ack `A`. -/
theorem addAck_conflict_overwrites_witness :
    Sample.A.Index ≠ 0 ∧
    (Sample.withAcks [none, some Sample.B]).ackpool.elems[Sample.A.Index]? =
      some (some Sample.B) ∧
    Sample.A.Equals Sample.B = false ∧
    (∀ mp' r, addAck Sample.env (Sample.withAcks [none, some Sample.B]) (some Sample.A) =
        .ok (mp', r) → mp'.ackpool.elems[Sample.A.Index]? = some (some Sample.A)) ∧
    ((Sample.withAcks [none, some Sample.B]).ackpool.cap < 2 ^ 32 →
      (Sample.A.Typ ∈ [AckType.AckCommitChain, .AckRevealChain, .AckCommitEntry,
        .AckRevealEntry, .AckFactoidTx] → Sample.A.Affirmation ≠ none) →
      ∃ mp' r, addAck Sample.env (Sample.withAcks [none, some Sample.B]) (some Sample.A) =
        .ok (mp', r)) :=
  ⟨by decide, rfl, rfl,
    addAck_conflict_overwrites Sample.env (Sample.withAcks [none, some Sample.B]) Sample.A
      Sample.B (by decide) rfl rfl⟩


/-- Claim C5 fails as stated for index 0: on the freshly initialised pool the
ack `AX` (index 0, `AckRevealChain`, affirmation `hx` that the pool does not
hold) returns a request for the missing payload, and the same ack ingested
again on the resulting state returns that request again, not no-action. -/
theorem addAck_twice_at_index_zero_requests_again :
    addAck Sample.env initFtmMemPool (some Sample.AX) =
      .ok (Sample.withAcks [some Sample.AX],
        some ⟨7, 0, .AckRevealChain, false, Sample.hx, 7, 1⟩) ∧
    addAck Sample.env (Sample.withAcks [some Sample.AX]) (some Sample.AX) =
      .ok (Sample.withAcks [some Sample.AX],
        some ⟨7, 0, .AckRevealChain, false, Sample.hx, 7, 1⟩) :=
  ⟨rfl, rfl⟩

/-- Claim C5 as amended: for a pool whose capacity is below `2 ^ 32`, when
`addAck` of `A` completes and gives the state `mp'`, a second `addAck` of `A`
on `mp'` completes and leaves `mp'` unchanged; it returns no-action when
`A.Index` is not 0, and returns what the first call returned when `A.Index` is
0, where the pool is reset before the duplicate check. -/
theorem addAck_twice (env : Env) (mp mp' : ftmMemPool) (A : MsgAck) (r : Option MsgMissing)
    (hcap : mp.ackpool.cap < 2 ^ 32) (h : addAck env mp (some A) = .ok (mp', r)) :
    addAck env mp' (some A) = .ok (mp', if A.Index = 0 then r else none) := by
  obtain ⟨g, a, hg, ha, hcase⟩ := addAck_ok_cases env mp mp' A r h
  have hltg : A.Index < g.len := (List.getElem?_eq_some_iff.mp ha).1
  by_cases h0 : A.Index = 0
  · rw [if_pos h0]
    have hg0 : g = Slice.make 100 200 := by
      rw [h0, growAckpool_zero] at hg
      exact (Except.ok.inj hg).symm
    rcases hcase with ⟨⟨b, hb, _⟩, _, _⟩ | ⟨_, hmp, _⟩
    · subst hg0 hb
      rw [h0] at ha
      simp [Slice.make] at ha
    · rw [hmp, addAck_index_zero_congr env mp A _ h0, h, ← hmp]
  · rw [if_neg h0]
    have hgcap : g.cap < 2 ^ 32 := by
      rcases growAckpool_cases mp.ackpool g A.Index hg with
        ⟨h0', _⟩ | ⟨_, _, hc, hgv⟩ | ⟨_, _, _, hgv⟩ | ⟨_, _, _, hgv⟩
      · exact absurd h0' h0
      · subst hgv
        simp only [Slice.cap, Slice.backing, List.length_take, List.length_drop,
          List.length_append] at hcap hc ⊢
        omega
      · subst hgv
        simp only [Slice.cap, Slice.copy, Slice.make, Slice.len, List.length_append,
          List.length_take, List.length_drop, List.length_replicate]
        have : A.Index * 2 % 2 ^ 32 < 2 ^ 32 := Nat.mod_lt _ (by norm_num)
        omega
      · subst hgv; exact hcap
    rcases hcase with ⟨⟨b, hb, heq⟩, hmp, _⟩ | ⟨_, hmp, _⟩
    · subst hb
      have hg2 : growAckpool mp'.ackpool A.Index = .ok g := by
        rw [hmp]
        exact growAckpool_inside g A.Index hgcap h0 hltg
      rw [addAck_duplicate env mp' A b g hg2 ha heq, hmp]
    · have hg2 : growAckpool mp'.ackpool A.Index =
          .ok { g with elems := g.elems.set A.Index (some A) } := by
        rw [hmp]
        exact growAckpool_inside _ A.Index
          (by simpa [Slice.cap] using hgcap) h0 (by simpa [Slice.len] using hltg)
      have ha2 : ({ g with elems := g.elems.set A.Index (some A) } :
          Slice (Option MsgAck)).elems[A.Index]? = some (some A) := by
        simp only [Slice.len] at hltg
        simp [List.getElem?_set_self, hltg]
      rw [addAck_duplicate env mp' A A _ hg2 ha2 (MsgAck.Equals_refl A), hmp]

/-- The amended claim C5 at the freshly initialised pool, for the ack `B` of
index 1. -/
theorem addAck_twice_witness :
    initFtmMemPool.ackpool.cap < 2 ^ 32 ∧
    addAck Sample.env initFtmMemPool (some Sample.B) =
      .ok (Sample.withAcks [none, some Sample.B], none) ∧
    addAck Sample.env (Sample.withAcks [none, some Sample.B]) (some Sample.B) =
      .ok (Sample.withAcks [none, some Sample.B],
        if Sample.B.Index = 0 then none else none) :=
  ⟨by decide, rfl,
    addAck_twice Sample.env initFtmMemPool (Sample.withAcks [none, some Sample.B]) Sample.B
      none (by decide) rfl⟩

/-! ## Claims on the request for a missing payload and on the slots -/

/-- Claim C6: for an ack `A` with a present affirmation `hash` on which `addAck`
completes, a request is returned exactly when `A` is not suppressed as equal to
the incumbent of its slot (the slot read after the growth step), the type of
`A` is one of the five payload-bearing types, and the pool holds no message
under `hash`; the request then carries the height, index and type of `A`, the
flag `false`, `hash` and the node identifier, is signed with the server key,
and slot `A.Index` holds `A`. In every other case nothing is returned. -/
theorem addAck_missing_payload_iff (env : Env) (mp mp' : ftmMemPool) (A : MsgAck)
    (hash : ShaHash) (r : Option MsgMissing) (haff : A.Affirmation = some hash)
    (h : addAck env mp (some A) = .ok (mp', r)) :
    (r ≠ none ↔
      (¬ ∃ g b, growAckpool mp.ackpool A.Index = .ok g ∧
          g.elems[A.Index]? = some (some b) ∧ A.Equals b = true) ∧
      A.Typ ∈ [AckType.AckCommitChain, .AckRevealChain, .AckCommitEntry, .AckRevealEntry,
        .AckFactoidTx] ∧
      mp.pool.read hash = none) ∧
    (∀ m, r = some m →
      m.Height = A.Height ∧ m.Index = A.Index ∧ m.Typ = A.Typ ∧ m.IsAck = false ∧
      m.ShaHash = hash ∧ m.ReplyTo = env.nodeID ∧
      m.Sig = env.serverPrivKeySign
        (NewMsgMissing A.Height A.Index A.Typ false hash env.nodeID) ∧
      mp'.ackpool.elems[A.Index]? = some (some A)) := by
  obtain ⟨g, a, hg, ha, hcase⟩ := addAck_ok_cases env mp mp' A r h
  have hltg : A.Index < g.elems.length := (List.getElem?_eq_some_iff.mp ha).1
  rcases hcase with ⟨⟨b, hb, heq⟩, _, hr⟩ | ⟨hne, hmp, hr⟩
  · subst hb hr
    refine ⟨⟨fun hc => absurd rfl hc, fun hc => absurd ⟨g, b, hg, ha, heq⟩ hc.1⟩, ?_⟩
    intro m hm
    cases hm
  · have hnodup : ¬ ∃ g' b, growAckpool mp.ackpool A.Index = .ok g' ∧
        g'.elems[A.Index]? = some (some b) ∧ A.Equals b = true := by
      rintro ⟨g', b, hg', hb, heq⟩
      rw [hg] at hg'
      cases hg'
      rw [ha] at hb
      have := hne b (Option.some.inj hb)
      rw [this] at heq
      cases heq
    have hslot : mp'.ackpool.elems[A.Index]? = some (some A) := by
      rw [hmp]
      simp [List.getElem?_set_self, hltg]
    rcases hr with ⟨hty, hr⟩ | ⟨hty, hash', haff', hr⟩
    · subst hr
      refine ⟨⟨fun hc => absurd rfl hc, fun hc => absurd hc.2.1 hty⟩, ?_⟩
      intro m hm
      cases hm
    · rw [haff] at haff'
      cases haff'
      rcases hr with ⟨hrd, hr⟩ | ⟨hrd, hr⟩
      · subst hr
        refine ⟨⟨fun _ => ⟨hnodup, hty, hrd⟩, fun _ => by simp⟩, ?_⟩
        intro m hm
        cases hm
        exact ⟨rfl, rfl, rfl, rfl, rfl, rfl, rfl, hslot⟩
      · subst hr
        refine ⟨⟨fun hc => absurd rfl hc, fun hc => absurd hc.2.2 hrd⟩, ?_⟩
        intro m hm
        cases hm

/-- Claim C6 at the scenario "missing payload": the ack `AX` on the freshly
initialised pool. -/
theorem addAck_missing_payload_iff_witness :
    Sample.AX.Affirmation = some Sample.hx ∧
    addAck Sample.env initFtmMemPool (some Sample.AX) =
      .ok (Sample.withAcks [some Sample.AX],
        some ⟨7, 0, .AckRevealChain, false, Sample.hx, 7, 1⟩) ∧
    ((some (⟨7, 0, .AckRevealChain, false, Sample.hx, 7, 1⟩ : MsgMissing) ≠ none ↔
      (¬ ∃ g b, growAckpool initFtmMemPool.ackpool Sample.AX.Index = .ok g ∧
          g.elems[Sample.AX.Index]? = some (some b) ∧ Sample.AX.Equals b = true) ∧
      Sample.AX.Typ ∈ [AckType.AckCommitChain, .AckRevealChain, .AckCommitEntry,
        .AckRevealEntry, .AckFactoidTx] ∧
      initFtmMemPool.pool.read Sample.hx = none) ∧
    (∀ m, some (⟨7, 0, .AckRevealChain, false, Sample.hx, 7, 1⟩ : MsgMissing) = some m →
      m.Height = Sample.AX.Height ∧ m.Index = Sample.AX.Index ∧ m.Typ = Sample.AX.Typ ∧
      m.IsAck = false ∧ m.ShaHash = Sample.hx ∧ m.ReplyTo = Sample.env.nodeID ∧
      m.Sig = Sample.env.serverPrivKeySign
        (NewMsgMissing Sample.AX.Height Sample.AX.Index Sample.AX.Typ false Sample.hx
          Sample.env.nodeID) ∧
      (Sample.withAcks [some Sample.AX]).ackpool.elems[Sample.AX.Index]? =
        some (some Sample.AX))) :=
  ⟨rfl, rfl,
    addAck_missing_payload_iff Sample.env initFtmMemPool (Sample.withAcks [some Sample.AX])
      Sample.AX Sample.hx _ rfl rfl⟩

/-- Claim C7: for a pool with the invariant of the ack pool, after an `addAck`
of `A` that completes, slot `A.Index` holds an ack equal to `A`; and when
`A.Index` is not 0, every other slot that was addressable keeps its content at
its index (an ack stays where it was), and every slot that growth made
addressable, `A.Index` apart, is absent. -/
theorem addAck_slots (env : Env) (mp mp' : ftmMemPool) (A : MsgAck) (r : Option MsgMissing)
    (hwf : AckpoolWF mp.ackpool) (h : addAck env mp (some A) = .ok (mp', r)) :
    (∃ b, mp'.ackpool.elems[A.Index]? = some (some b) ∧ A.Equals b = true) ∧
    (A.Index ≠ 0 →
      (∀ j, j ≠ A.Index → j < mp.ackpool.len →
        mp'.ackpool.elems[j]? = mp.ackpool.elems[j]?) ∧
      (∀ j, j ≠ A.Index → mp.ackpool.len ≤ j → j < mp'.ackpool.len →
        mp'.ackpool.elems[j]? = some none)) := by
  obtain ⟨g, a, hg, ha, hcase⟩ := addAck_ok_cases env mp mp' A r h
  have hltg : A.Index < g.len := (List.getElem?_eq_some_iff.mp ha).1
  have hset : ∀ j, j ≠ A.Index → (g.elems.set A.Index (some A))[j]? = g.elems[j]? := by
    intro j hj
    exact List.getElem?_set_ne (Ne.symm hj)
  constructor
  · rcases hcase with ⟨⟨b, hb, heq⟩, hmp, _⟩ | ⟨_, hmp, _⟩
    · subst hb
      exact ⟨b, by rw [hmp]; exact ha, heq⟩
    · refine ⟨A, ?_, MsgAck.Equals_refl A⟩
      rw [hmp]
      simp only [Slice.len] at hltg
      simp [List.getElem?_set_self, hltg]
  · intro h0
    have hlen := growAckpool_len_le mp.ackpool g A.Index hg h0 hwf.1 hltg
    constructor
    · intro j hj hjl
      have hkeep := growAckpool_preserves mp.ackpool g A.Index j hg h0 hjl (by omega)
      rcases hcase with ⟨_, hmp, _⟩ | ⟨_, hmp, _⟩
      · rw [hmp]; exact hkeep
      · rw [hmp]
        simp only
        rw [hset j hj]
        exact hkeep
    · intro j hj hjl hjg
      rcases hcase with ⟨_, hmp, _⟩ | ⟨_, hmp, _⟩
      · rw [hmp] at hjg ⊢
        exact growAckpool_fresh mp.ackpool g A.Index j hg h0 hwf hltg hjl hjg
      · rw [hmp] at hjg ⊢
        simp only [Slice.len, List.length_set] at hjg
        simp only
        rw [hset j hj]
        exact growAckpool_fresh mp.ackpool g A.Index j hg h0 hwf hltg hjl hjg

/-- Claim C7 at a growth step: the pool whose slot 1 holds `B` receives an ack
with index 100, which grows the length from 100 to 150. -/
theorem addAck_slots_witness :
    AckpoolWF (Sample.withAcks [none, some Sample.B]).ackpool ∧
    addAck Sample.env (Sample.withAcks [none, some Sample.B]) (some (Sample.eom 100)) =
      .ok (Sample.grown150, none) ∧
    ((∃ b, Sample.grown150.ackpool.elems[(Sample.eom 100).Index]? = some (some b) ∧
        (Sample.eom 100).Equals b = true) ∧
    ((Sample.eom 100).Index ≠ 0 →
      (∀ j, j ≠ (Sample.eom 100).Index →
        j < (Sample.withAcks [none, some Sample.B]).ackpool.len →
        Sample.grown150.ackpool.elems[j]? =
          (Sample.withAcks [none, some Sample.B]).ackpool.elems[j]?) ∧
      (∀ j, j ≠ (Sample.eom 100).Index →
        (Sample.withAcks [none, some Sample.B]).ackpool.len ≤ j →
        j < Sample.grown150.ackpool.len →
        Sample.grown150.ackpool.elems[j]? = some none))) :=
  ⟨by decide, rfl,
    addAck_slots Sample.env (Sample.withAcks [none, some Sample.B]) Sample.grown150
      (Sample.eom 100) none
      (by decide) rfl⟩


/-- Claim C8: for every pool and every ack `A` with index 0, after `addAck` of
`A` the ack pool has length 100 and capacity 200, slot 0 holds `A` and every
slot above 0 is absent; the call completes unless `A` is of a payload-bearing
type and carries no affirmation; and `resetAckPool` yields a pool of length
100 and capacity 200 whose slots are all absent. -/
theorem addAck_index_zero_resets (env : Env) (mp : ftmMemPool) (A : MsgAck)
    (h0 : A.Index = 0) :
    (∀ mp' r, addAck env mp (some A) = .ok (mp', r) →
      mp'.ackpool.len = 100 ∧ mp'.ackpool.cap = 200 ∧
      mp'.ackpool.elems[0]? = some (some A) ∧
      ∀ i, 0 < i → i < 100 → mp'.ackpool.elems[i]? = some none) ∧
    ((A.Typ ∈ [AckType.AckCommitChain, .AckRevealChain, .AckCommitEntry, .AckRevealEntry,
        .AckFactoidTx] → A.Affirmation ≠ none) →
      ∃ mp' r, addAck env mp (some A) = .ok (mp', r)) ∧
    ((resetAckPool mp).ackpool.len = 100 ∧ (resetAckPool mp).ackpool.cap = 200 ∧
      ∀ i, i < 100 → (resetAckPool mp).ackpool.elems[i]? = some none) := by
  have hg : growAckpool mp.ackpool A.Index = .ok (Slice.make 100 200) := by
    rw [h0]; exact growAckpool_zero _
  have ha : (Slice.make 100 200 : Slice (Option MsgAck)).elems[A.Index]? = some none := by
    rw [h0]; simp [Slice.make]
  have hne : ∀ b, (none : Option MsgAck) = some b → A.Equals b = false := by
    intro b hb; cases hb
  refine ⟨?_, ?_, ?_⟩
  · intro mp' r h
    obtain ⟨g, a, hg', ha', hcase⟩ := addAck_ok_cases env mp mp' A r h
    rw [hg] at hg'
    cases hg'
    rw [ha] at ha'
    cases ha'
    rcases hcase with ⟨⟨b, hb, _⟩, _, _⟩ | ⟨_, hmp, _⟩
    · cases hb
    · subst hmp
      rw [h0]
      refine ⟨by simp [Slice.len, Slice.make], by simp [Slice.cap, Slice.make],
        by simp [Slice.make], ?_⟩
      intro i hi hi2
      simp only [Slice.make]
      rw [List.getElem?_set_ne (by omega), List.getElem?_replicate, if_pos hi2]
  · intro haff
    by_cases hty : A.Typ ∈ [AckType.AckCommitChain, .AckRevealChain, .AckCommitEntry,
        .AckRevealEntry, .AckFactoidTx]
    · cases hA : A.Affirmation with
      | none => exact absurd hA (haff hty)
      | some hash =>
        exact ⟨_, _, addAck_store_payload env mp A _ none hash hg ha hne hty hA⟩
    · exact ⟨_, _, addAck_store_plain env mp A _ none hg ha hne hty⟩
  · refine ⟨by simp [resetAckPool, Slice.len, Slice.make],
      by simp [resetAckPool, Slice.cap, Slice.make], ?_⟩
    intro i hi
    simp only [resetAckPool, Slice.make]
    rw [List.getElem?_replicate, if_pos hi]

/-- Claim C8 at a pool that has grown to length and capacity 400, for the ack
`AX` of index 0. -/
theorem addAck_index_zero_resets_witness :
    addAck Sample.env initFtmMemPool (some (Sample.eom 200)) = .ok (Sample.grown400, none) ∧
    Sample.grown400.ackpool.len = 400 ∧ Sample.grown400.ackpool.cap = 400 ∧
    Sample.AX.Index = 0 ∧
    addAck Sample.env Sample.grown400 (some Sample.AX) =
      .ok (Sample.withAcks [some Sample.AX],
        some ⟨7, 0, .AckRevealChain, false, Sample.hx, 7, 1⟩) ∧
    (∀ mp' r, addAck Sample.env Sample.grown400 (some Sample.AX) = .ok (mp', r) →
      mp'.ackpool.len = 100 ∧ mp'.ackpool.cap = 200 ∧
      mp'.ackpool.elems[0]? = some (some Sample.AX) ∧
      ∀ i, 0 < i → i < 100 → mp'.ackpool.elems[i]? = some none) :=
  ⟨rfl, rfl, rfl, rfl, rfl,
    (addAck_index_zero_resets Sample.env Sample.grown400 Sample.AX rfl).1⟩

/-! ## Claims on the missing-ack scan and on the order of the assembly -/

/-- Claim C9: for an ack `E` with `E.Index` at most the length of the ack pool,
and `p` the largest slot below `E.Index` that holds an EOM ack (`-1` if there
is none), `getMissingMsgAck` returns one request for each slot `i` with
`p < i < E.Index` that is absent and no other, in strictly decreasing order of
the slots; the request for `i` carries the height of `E`, the index `i`, the
type `Unknown`, the flag `true`, the zero hash and the node identifier, and is
signed with the key of the local server. For `E.Index = 0` nothing is
returned. -/
theorem getMissingMsgAck_spec (env : Env) (mp : ftmMemPool) (E : MsgAck) (p : Int)
    (hE : E.Index ≤ mp.ackpool.len) (hp : p < E.Index)
    (hpe : p = -1 ∨
      (0 ≤ p ∧ ∃ b, mp.ackpool.elems[p.toNat]? = some (some b) ∧ b.IsEomAck = true))
    (hmax : ∀ j : Nat, p < j → j < E.Index → ∀ b, mp.ackpool.elems[j]? = some (some b) →
      b.IsEomAck = false) :
    ∃ idxs : List Nat,
      getMissingMsgAck env mp E =
        .ok (idxs.map (fun (i : Nat) =>
          { NewMsgMissing E.Height i .Unknown true zeroBtcHash env.nodeID with
            Sig := env.localServerPrivKeySign
              (NewMsgMissing E.Height i .Unknown true zeroBtcHash env.nodeID) })) ∧
      (∀ i : Nat, i ∈ idxs ↔ (p < i ∧ i < E.Index ∧ mp.ackpool.elems[i]? = some none)) ∧
      idxs.Pairwise (fun i j => j < i) ∧
      (E.Index = 0 → idxs = []) := by
  refine ⟨(List.range E.Index).reverse.filter
    (fun (i : Nat) => decide (p < (i : Int)) && decide (mp.ackpool.elems[i]? = some none)), ?_, ?_, ?_, ?_⟩
  · unfold getMissingMsgAck
    by_cases h0 : E.Index = 0
    · rw [if_pos h0, h0]
      rfl
    · rw [if_neg h0, getMissingMsgAckLoop_eq env mp E p E.Index [] hE hp hpe hmax]
      rfl
  · intro i
    simp only [List.mem_filter, List.mem_reverse, List.mem_range, Bool.and_eq_true,
      decide_eq_true_eq]
    tauto
  · apply List.Pairwise.filter
    rw [List.pairwise_reverse]
    exact List.pairwise_lt_range _
  · intro h0
    rw [h0]
    rfl

/-- Claim C9 at the scenario "missing ack scan": slots 0 and 3 are filled, the
ack at index 3 yields the requests for slots 2 and 1, in that order. -/
theorem getMissingMsgAck_spec_witness :
    getMissingMsgAck Sample.env Sample.gapped (Sample.eom 3) =
      .ok [⟨5, 2, .Unknown, true, zeroBtcHash, 7, 2⟩,
        ⟨5, 1, .Unknown, true, zeroBtcHash, 7, 2⟩] ∧
    ∃ idxs : List Nat,
      getMissingMsgAck Sample.env Sample.gapped (Sample.eom 3) =
        .ok (idxs.map (fun (i : Nat) =>
          { NewMsgMissing (Sample.eom 3).Height i .Unknown true zeroBtcHash
              Sample.env.nodeID with
            Sig := Sample.env.localServerPrivKeySign
              (NewMsgMissing (Sample.eom 3).Height i .Unknown true zeroBtcHash
                Sample.env.nodeID) })) ∧
      (∀ i : Nat, i ∈ idxs ↔
        ((-1 : Int) < i ∧ i < (Sample.eom 3).Index ∧
          Sample.gapped.ackpool.elems[i]? = some none)) ∧
      idxs.Pairwise (fun i j => j < i) ∧
      ((Sample.eom 3).Index = 0 → idxs = []) :=
  ⟨rfl,
    getMissingMsgAck_spec Sample.env Sample.gapped (Sample.eom 3) (-1) (by decide)
      (by decide) (Or.inl rfl)
      (by
        intro j _ hj b hb
        have hj3 : j < 3 := hj
        interval_cases j
        · cases hb; rfl
        · cases hb
        · cases hb)⟩

/-- Claim C10: when the precondition of `assembleFollowerProcessList` holds
(the ack `A` is of type `EndMinute10` and slot `A.Index` holds `A`), the call
returns no error and the acks of the emitted items are the acks of the slots
`idxs`, which increase strictly; `k` is the first slot that holds an
`EndMinute10` ack `e`, no emitted slot lies beyond `k`, the last emitted slot
is `k` and the last emitted item carries `e`. -/
theorem assembleFollowerProcessList_order (mp : ftmMemPool) (A : MsgAck) (hty : A.Typ = .EndMinute10)
    (hslot : mp.ackpool.elems[A.Index]? = some (some A)) :
    ∃ (items : List PLItem) (idxs : List Nat) (k : Nat) (e : MsgAck),
      assembleFollowerProcessList mp A = .ok (none, items) ∧
      idxs.Pairwise (fun i j => i < j) ∧
      idxs.map (fun i => mp.ackpool.elems[i]?) = items.map (fun it => some (some it.ack)) ∧
      mp.ackpool.elems[k]? = some (some e) ∧ e.Typ = .EndMinute10 ∧
      (∀ (j : Nat) (b : MsgAck), j < k → mp.ackpool.elems[j]? = some (some b) → b.Typ ≠ .EndMinute10) ∧
      (∀ i ∈ idxs, i ≤ k) ∧
      idxs.getLast? = some k ∧
      items.getLast?.map (fun it => it.ack) = some e := by
  obtain ⟨idxs, k, e, h⟩ := assembleLoop_spec mp.pool mp.ackpool.elems none ⟨A.Index, A, hslot, hty⟩
  have hrun : assembleFollowerProcessList mp A =
      .ok (none, assembleLoop mp.pool mp.ackpool.elems none) := by
    unfold assembleFollowerProcessList
    simp [hty, (Slice.index_ok_iff _ _ _).mpr hslot]
  obtain ⟨hpw, hmap, hk, he, hfirst, hle, hlast⟩ := h
  refine ⟨_, idxs, k, e, hrun, hpw, hmap, hk, he, hfirst, hle, hlast, ?_⟩
  have := congrArg List.getLast? hmap
  rw [List.getLast?_map, List.getLast?_map, hlast] at this
  simp only [Option.map_some', hk] at this
  cases hl : (assembleLoop mp.pool mp.ackpool.elems none).getLast? with
  | none => rw [hl] at this; cases this
  | some it =>
    rw [hl] at this
    simp only [Option.map_some', Option.some.injEq] at this ⊢
    exact this.symm

/-- Claim C10 at the scenario "pair then assemble": slots 0 and 1 are emitted,
slot 1 holds the `EndMinute10` ack. -/
theorem assembleFollowerProcessList_order_witness :
    Sample.A1.Typ = .EndMinute10 ∧
    Sample.paired.ackpool.elems[Sample.A1.Index]? = some (some Sample.A1) ∧
    ∃ (items : List PLItem) (idxs : List Nat) (k : Nat) (e : MsgAck),
      assembleFollowerProcessList Sample.paired Sample.A1 = .ok (none, items) ∧
      idxs.Pairwise (fun i j => i < j) ∧
      idxs.map (fun i => Sample.paired.ackpool.elems[i]?) =
        items.map (fun it => some (some it.ack)) ∧
      Sample.paired.ackpool.elems[k]? = some (some e) ∧ e.Typ = .EndMinute10 ∧
      (∀ (j : Nat) (b : MsgAck), j < k → Sample.paired.ackpool.elems[j]? = some (some b) →
        b.Typ ≠ .EndMinute10) ∧
      (∀ i ∈ idxs, i ≤ k) ∧
      idxs.getLast? = some k ∧
      items.getLast?.map (fun it => it.ack) = some e :=
  ⟨rfl, rfl, assembleFollowerProcessList_order Sample.paired Sample.A1 rfl rfl⟩

/-! ## Lemmas on maps -/

section GoMapLemmas

variable {κ ν : Type} [DecidableEq κ]

/-- A key that keeps all its entries through a filter is found as before. -/
theorem GoMap.find?_filter_of_keep (l : List (κ × ν)) (p : κ × ν → Bool) (k : κ)
    (hk : ∀ e ∈ l, e.1 = k → p e = true) :
    (GoMap.mk (l.filter p)).find? k = (GoMap.mk l).find? k := by
  unfold GoMap.find?
  simp only
  congr 1
  induction l with
  | nil => rfl
  | cons e rest ih =>
    have ih' := ih (fun e' he' => hk e' (List.mem_cons_of_mem _ he'))
    by_cases hek : e.1 = k
    · have hp := hk e (List.mem_cons_self _ _) hek
      simp [List.filter_cons, hp, hek]
    · by_cases hp : p e = true
      · simp [List.filter_cons, hp, hek, ih']
      · simp [List.filter_cons, hp, hek, ih']

/-- After `delete(m, k)` the key `k` is not found. -/
theorem GoMap.find?_delete_self (m : GoMap κ ν) (k : κ) : (m.delete k).find? k = none := by
  unfold GoMap.find? GoMap.delete
  simp

/-- After `m[k] = v` the key `k` is found with `v`. -/
theorem GoMap.find?_put_self (m : GoMap κ ν) (k : κ) (v : ν) :
    (m.put k v).find? k = some v := by
  unfold GoMap.find? GoMap.put
  simp only
  induction m.entries with
  | nil => simp [GoMap.putEntries]
  | cons e rest ih =>
    unfold GoMap.putEntries
    by_cases hek : e.1 = k
    · simp [hek]
    · simp only [hek, if_false, List.find?_cons_of_neg, decide_False, Bool.false_eq_true,
        not_false_eq_true]
      exact ih

/-- After `m[k] = v` every other key is found as before. -/
theorem GoMap.find?_put_ne (m : GoMap κ ν) (k k' : κ) (v : ν) (hne : k' ≠ k) :
    (m.put k v).find? k' = m.find? k' := by
  unfold GoMap.find? GoMap.put
  simp only
  congr 1
  induction m.entries with
  | nil => simp [GoMap.putEntries, Ne.symm hne]
  | cons e rest ih =>
    unfold GoMap.putEntries
    by_cases hek : e.1 = k
    · have : ¬ e.1 = k' := fun h => hne (h.symm.trans hek)
      simp [hek, this, Ne.symm hne]
    · by_cases hek' : e.1 = k'
      · have hk'k : ¬ k' = k := hne
        simp [hek, hek', hk'k]
      · simp [hek, hek', ih]

/-- Writing the same value under the same key twice is writing it once. -/
theorem GoMap.put_put_self (m : GoMap κ ν) (k : κ) (v : ν) :
    (m.put k v).put k v = m.put k v := by
  unfold GoMap.put
  simp only
  congr 1
  induction m.entries with
  | nil => simp [GoMap.putEntries]
  | cons e rest ih =>
    by_cases hek : e.1 = k
    · simp [GoMap.putEntries, hek]
    · simp only [GoMap.putEntries, hek, if_false]
      rw [ih]

/-- A key that is not found is written behind the entries of the map. -/
theorem GoMap.put_of_find?_none (m : GoMap κ ν) (k : κ) (v : ν) (h : m.find? k = none) :
    (m.put k v).entries = m.entries ++ [(k, v)] := by
  obtain ⟨l⟩ := m
  unfold GoMap.find? at h
  unfold GoMap.put
  simp only [Option.map_eq_none', List.find?_eq_none, decide_eq_true_eq] at h ⊢
  induction l with
  | nil => rfl
  | cons e rest ih =>
    have he : ¬ e.1 = k := h e (List.mem_cons_self _ _)
    simp only [GoMap.putEntries, he, if_false, List.cons_append]
    rw [ih (fun x hx => h x (List.mem_cons_of_mem _ hx))]

/-- A key whose only entry is the last one has that entry replaced. -/
theorem GoMap.put_last (l : List (κ × ν)) (k : κ) (v w : ν)
    (h : ∀ e ∈ l, e.1 ≠ k) :
    (GoMap.mk (l ++ [(k, v)])).put k w = GoMap.mk (l ++ [(k, w)]) := by
  unfold GoMap.put
  simp only
  congr 1
  induction l with
  | nil => simp [GoMap.putEntries]
  | cons e rest ih =>
    have he : ¬ e.1 = k := h e (List.mem_cons_self _ _)
    simp only [List.cons_append, GoMap.putEntries, he, if_false]
    exact congrArg _ (ih (fun x hx => h x (List.mem_cons_of_mem _ hx)))

/-- A key whose only entry is the last one is found with the value of that
entry. -/
theorem GoMap.find?_last (l : List (κ × ν)) (k : κ) (v : ν) (h : ∀ e ∈ l, e.1 ≠ k) :
    (GoMap.mk (l ++ [(k, v)])).find? k = some v := by
  unfold GoMap.find?
  simp only [List.find?_append]
  have : l.find? (fun e => decide (e.1 = k)) = none := by
    rw [List.find?_eq_none]
    intro x hx
    simpa using h x hx
  rw [this]
  simp

end GoMapLemmas

/-! ## Lemmas on the content pool, the relay and the request table -/

section GoMapSizeLemmas

variable {κ ν : Type} [DecidableEq κ]

/-- Writing under a key that is found keeps the number of entries. -/
theorem GoMap.size_put_of_found (m : GoMap κ ν) (k : κ) (v : ν) (h : m.find? k ≠ none) :
    (m.put k v).size = m.size := by
  obtain ⟨l⟩ := m
  unfold GoMap.find? at h
  unfold GoMap.put GoMap.size
  simp only [ne_eq, Option.map_eq_none', List.find?_eq_none, decide_eq_true_eq, not_forall,
    Classical.not_imp, not_not] at h ⊢
  induction l with
  | nil =>
    obtain ⟨e, he, _⟩ := h
    cases he
  | cons e rest ih =>
    by_cases hek : e.1 = k
    · simp [GoMap.putEntries, hek]
    · simp only [GoMap.putEntries, hek, if_false, List.length_cons, add_left_inj]
      apply ih
      obtain ⟨x, hx, hxk⟩ := h
      rcases List.mem_cons.mp hx with rfl | hx'
      · exact absurd hxk hek
      · exact ⟨x, hx', hxk⟩

/-- Writing under a key that is not found adds one entry. -/
theorem GoMap.size_put_of_not_found (m : GoMap κ ν) (k : κ) (v : ν) (h : m.find? k = none) :
    (m.put k v).size = m.size + 1 := by
  unfold GoMap.size
  rw [GoMap.put_of_find?_none m k v h]
  simp

/-- In a map with one entry per key, an entry is found under its key. -/
theorem GoMap.find?_of_mem (m : GoMap κ ν) (k : κ) (v : ν)
    (hkeys : (m.entries.map Prod.fst).Nodup) (hmem : (k, v) ∈ m.entries) :
    m.find? k = some v := by
  obtain ⟨l⟩ := m
  unfold GoMap.find?
  simp only at hkeys hmem ⊢
  induction l with
  | nil => cases hmem
  | cons e rest ih =>
    simp only [List.map_cons, List.nodup_cons] at hkeys
    rcases List.mem_cons.mp hmem with heq | hrest
    · subst heq
      simp
    · have hne : ¬ e.1 = k := by
        intro hek
        apply hkeys.1
        rw [hek]
        exact List.mem_map_of_mem Prod.fst hrest
      simp only [List.find?_cons_of_neg, hne, decide_False, Bool.false_eq_true,
        not_false_eq_true]
      exact ih hkeys.2 hrest

/-- What is found under a key is an entry of the map. -/
theorem GoMap.mem_of_find? (m : GoMap κ ν) (k : κ) (v : ν) (h : m.find? k = some v) :
    (k, v) ∈ m.entries := by
  unfold GoMap.find? at h
  simp only [Option.map_eq_some'] at h
  obtain ⟨e, he, hv⟩ := h
  have hk := List.find?_some he
  have hmem := List.mem_of_find?_eq_some he
  simp only [decide_eq_true_eq] at hk
  obtain ⟨k', v'⟩ := e
  simp only at hk hv
  subst hk hv
  exact hmem

end GoMapSizeLemmas

/-- `cleanUpMemPool` removes from the pool the entries of the hashes of the
process list and touches nothing else. -/
theorem cleanUpMemPool_eq (plItems : List (Option ProcessListItem)) :
    ∀ mp : ftmMemPool, cleanUpMemPool mp plItems =
      { mp with pool := ⟨mp.pool.entries.filter
        (fun e => decide (e.1 ∉ plHashes plItems))⟩ } := by
  induction plItems with
  | nil =>
    intro mp
    simp [cleanUpMemPool, plHashes]
  | cons item rest ih =>
    intro mp
    have hstep : cleanUpMemPool mp (item :: rest) =
        cleanUpMemPool (match item with
          | none => mp
          | some item =>
            match item.MsgHash with
            | some hash => { mp with pool := mp.pool.delete hash }
            | none => mp) rest := rfl
    rw [hstep, ih]
    cases item with
    | none => simp [plHashes]
    | some it =>
      cases hh : it.MsgHash with
      | none => simp [plHashes, hh]
      | some hash =>
        simp only [plHashes, List.filterMap_cons, Option.bind, hh, GoMap.delete,
          List.filter_filter]
        congr 2
        apply List.filter_congr
        intro e _
        simp only [List.mem_cons, not_or, ne_eq, decide_not, Bool.decide_and, Bool.and_comm]

/-- One loop of the relay deletes the visited keys and pushes the visited
messages in the order of the visits. -/
theorem relayLoop_eq (order : List (ShaHash × Option Message)) :
    ∀ (m : GoMap ShaHash (Option Message)) (out : List (Option Message)),
      relayLoop order m out =
        (⟨m.entries.filter (fun e => decide (e.1 ∉ order.map Prod.fst))⟩,
          out ++ order.map Prod.snd) := by
  induction order with
  | nil =>
    intro m out
    simp [relayLoop]
  | cons e rest ih =>
    intro m out
    have hstep : relayLoop (e :: rest) m out = relayLoop rest (m.delete e.1) (out ++ [e.2]) :=
      rfl
    rw [hstep, ih]
    simp only [GoMap.delete, List.filter_filter, List.map_cons, List.append_assoc,
      List.singleton_append, Prod.mk.injEq, GoMap.mk.injEq, and_true]
    apply List.filter_congr
    intro x _
    simp only [List.mem_cons, not_or, ne_eq, decide_not, Bool.decide_and, Bool.and_comm]

/-- At the bound: a pool that holds exactly `MAX_TX_POOL_SIZE` messages admits
a new hash, and the same admission repeated is refused. -/
theorem addMsg_at_bound (env : Env) (mp : ftmMemPool) (msg : Option Message) (hash : ShaHash)
    (hsize : mp.pool.size = env.MAX_TX_POOL_SIZE) (hnew : mp.pool.find? hash = none) :
    addMsg env mp msg hash =
      ({ mp with pool := ⟨mp.pool.entries ++ [(hash, msg)]⟩ }, none) ∧
    addMsg env { mp with pool := ⟨mp.pool.entries ++ [(hash, msg)]⟩ } msg hash =
      ({ mp with pool := ⟨mp.pool.entries ++ [(hash, msg)]⟩ },
        some "Transaction mem pool exceeds the limit.") := by
  have hput : mp.pool.put hash msg = ⟨mp.pool.entries ++ [(hash, msg)]⟩ := by
    have := GoMap.put_of_find?_none mp.pool hash msg hnew
    cases hp : mp.pool.put hash msg with
    | mk l => rw [hp] at this; exact congrArg GoMap.mk this
  constructor
  · unfold addMsg
    rw [if_neg (by omega), hput]
  · unfold addMsg
    have : (GoMap.mk (mp.pool.entries ++ [(hash, msg)])).size > env.MAX_TX_POOL_SIZE := by
      simp only [GoMap.size, List.length_append, List.length_singleton] at hsize ⊢
      omega
    simp only
    rw [if_pos this]

/-- The first miss of a hash creates its record behind the entries of the
table. -/
theorem addMissingMsg_first (mp : ftmMemPool) (typ : Nat) (hash : ShaHash) (height : Nat)
    (hnew : mp.requested.find? hash = none) :
    addMissingMsg mp typ hash height =
      ({ mp with requested := ⟨mp.requested.entries ++
          [(hash, ⟨⟨[⟨typ, hash, (height : Int)⟩]⟩, 1, false⟩)]⟩ },
        ⟨⟨[⟨typ, hash, (height : Int)⟩]⟩, 1, false⟩) := by
  have hput := GoMap.put_of_find?_none mp.requested hash
    (⟨⟨[⟨typ, hash, (height : Int)⟩]⟩, 1, false⟩ : reqMsg) hnew
  unfold addMissingMsg
  rw [hnew]
  simp only [Prod.mk.injEq, and_true]
  cases hp : mp.requested.put hash ⟨⟨[⟨typ, hash, (height : Int)⟩]⟩, 1, false⟩ with
  | mk l =>
    rw [hp] at hput
    simp only at hput
    rw [hput]

/-- A further miss of a hash whose record is the last entry of the table
increments the counter of that record modulo `2 ^ 32`. -/
theorem addMissingMsg_again (mp : ftmMemPool) (typ : Nat) (hash : ShaHash) (height : Nat)
    (pre : List (ShaHash × reqMsg)) (m : reqMsg)
    (hreq : mp.requested = ⟨pre ++ [(hash, m)]⟩) (hpre : ∀ e ∈ pre, e.1 ≠ hash) :
    addMissingMsg mp typ hash height =
      ({ mp with requested := ⟨pre ++
          [(hash, { m with TimesMissed := (m.TimesMissed + 1) % 2 ^ 32 })]⟩ },
        { m with TimesMissed := (m.TimesMissed + 1) % 2 ^ 32 }) := by
  unfold addMissingMsg
  rw [hreq, GoMap.find?_last pre hash m hpre]
  simp only
  rw [GoMap.put_last pre hash m _ hpre]

/-- Further misses of a hash whose record is the last entry of the table: the
counter advances by the number of calls, modulo `2 ^ 32`, and the call number
`k + 1` returns the record with the counter it has then. -/
theorem addMissingMsgs_again (hash : ShaHash) (pre : List (ShaHash × reqMsg)) (msg : MsgGetFactomData)
    (req : Bool) (hpre : ∀ e ∈ pre, e.1 ≠ hash) :
    ∀ (calls : List (Nat × Nat)) (mp : ftmMemPool) (t : Nat),
      mp.requested = ⟨pre ++ [(hash, ⟨msg, t % 2 ^ 32, req⟩)]⟩ →
      addMissingMsgs mp hash calls =
        ({ mp with requested := ⟨pre ++
            [(hash, ⟨msg, (t + calls.length) % 2 ^ 32, req⟩)]⟩ },
          (List.range calls.length).map
            (fun k => (⟨msg, (t + k + 1) % 2 ^ 32, req⟩ : reqMsg))) := by
  intro calls
  induction calls with
  | nil =>
    intro mp t hreq
    simp only [addMissingMsgs, List.length_nil, Nat.add_zero, List.range_zero, List.map_nil,
      Prod.mk.injEq, and_true]
    rw [← hreq]
  | cons c rest ih =>
    intro mp t hreq
    obtain ⟨typ, height⟩ := c
    have h1 := addMissingMsg_again mp typ hash height pre ⟨msg, t % 2 ^ 32, req⟩ hreq hpre
    simp only [Nat.add_mod_mod, Nat.mod_add_mod] at h1
    unfold addMissingMsgs
    simp only
    rw [h1]
    simp only
    rw [ih _ (t + 1) rfl]
    simp only [List.length_cons, Prod.mk.injEq]
    refine ⟨?_, ?_⟩
    · have : t + 1 + rest.length = t + (rest.length + 1) := by omega
      rw [this]
    · rw [List.range_succ_eq_map, List.map_cons, List.map_map]
      refine congrArg₂ _ rfl ?_
      apply List.map_congr_left
      intro k _
      simp only [Function.comp, Nat.succ_eq_add_one]
      have : t + 1 + k + 1 = t + (k + 1) + 1 := by omega
      rw [this]

/-- Successive misses of a hash that the table does not hold: one record is
created behind the entries of the table, its counter is the number of calls
modulo `2 ^ 32`, and the call number `k + 1` returns the record with the
counter `(k + 1) % 2 ^ 32`. -/
theorem addMissingMsgs_fresh (mp : ftmMemPool) (hash : ShaHash) (typ height : Nat)
    (rest : List (Nat × Nat)) (hnew : mp.requested.find? hash = none) :
    addMissingMsgs mp hash ((typ, height) :: rest) =
      ({ mp with requested := ⟨mp.requested.entries ++
          [(hash, ⟨⟨[⟨typ, hash, (height : Int)⟩]⟩, (rest.length + 1) % 2 ^ 32, false⟩)]⟩ },
        (List.range (rest.length + 1)).map
          (fun k => (⟨⟨[⟨typ, hash, (height : Int)⟩]⟩, (k + 1) % 2 ^ 32, false⟩ : reqMsg))) := by
  have hpre : ∀ e ∈ mp.requested.entries, e.1 ≠ hash := by
    unfold GoMap.find? at hnew
    simp only [Option.map_eq_none', List.find?_eq_none, decide_eq_true_eq] at hnew
    exact hnew
  unfold addMissingMsgs
  simp only
  rw [addMissingMsg_first mp typ hash height hnew]
  simp only
  rw [addMissingMsgs_again hash mp.requested.entries ⟨[⟨typ, hash, (height : Int)⟩]⟩ false hpre
    rest _ 1 rfl]
  simp only [Prod.mk.injEq]
  refine ⟨?_, ?_⟩
  · rw [Nat.add_comm 1 rest.length]
  · rw [List.range_succ_eq_map, List.map_cons, List.map_map]
    refine congrArg₂ _ rfl ?_
    apply List.map_congr_left
    intro k _
    simp only [Function.comp, Nat.succ_eq_add_one]
    have : 1 + k + 1 = k + 1 + 1 := by omega
    rw [this]

/-! ## Lemmas on the reachable shapes of the ack pool -/

/-- The growth step leads from one of the four shapes to one of them. -/
theorem growAckpool_shape (s g : Slice (Option MsgAck)) (i : Nat)
    (h : growAckpool s i = .ok g) (hs : AckShape s) : AckShape g := by
  unfold AckShape at hs ⊢
  rcases growAckpool_cases s g i h with ⟨_, hg⟩ | ⟨_, hl, hc, hg⟩ | ⟨_, hl, hc, hg⟩ | ⟨_, _, _, hg⟩
  · subst hg
    left
    simp [Slice.len, Slice.cap, Slice.make]
  · have hlen : g.len = (i + 50) % 2 ^ 32 := by
      subst hg
      simp only [Slice.len, Slice.cap, Slice.backing, List.length_take,
        List.length_append] at hc ⊢
      omega
    have hcap : g.cap = s.cap := by
      subst hg
      simp only [Slice.len, Slice.cap, Slice.backing, List.length_take, List.length_drop,
        List.length_append] at hc ⊢
      omega
    rw [hlen, hcap]
    generalize s.len = l at hs hl
    generalize s.cap = c at hs hc
    omega
  · have hlen : g.len = i * 2 % 2 ^ 32 := by
      subst hg
      simp only [Slice.len, Slice.copy, Slice.make, List.length_take, List.length_drop,
        List.length_append, List.length_replicate]
      omega
    have hcap : g.cap = i * 2 % 2 ^ 32 := by
      subst hg
      simp only [Slice.len, Slice.cap, Slice.copy, Slice.make, List.length_take,
        List.length_drop, List.length_append, List.length_replicate]
      omega
    rw [hlen, hcap]
    generalize s.len = l at hs hl
    generalize s.cap = c at hs hc
    omega
  · subst hg
    exact hs

/-- A completed `addAck` leads from one of the four shapes to one of them. -/
theorem addAck_shape (env : Env) (mp mp' : ftmMemPool) (ack : Option MsgAck)
    (r : Option MsgMissing) (h : addAck env mp ack = .ok (mp', r))
    (hs : AckShape mp.ackpool) : AckShape mp'.ackpool := by
  cases ack with
  | none =>
    have : mp' = mp := by
      unfold addAck at h
      simp only [Except.ok.injEq, Prod.mk.injEq] at h
      exact h.1.symm
    rw [this]
    exact hs
  | some A =>
    obtain ⟨g, a, hg, _, hcase⟩ := addAck_ok_cases env mp mp' A r h
    have hgs := growAckpool_shape mp.ackpool g A.Index hg hs
    rcases hcase with ⟨_, hmp, _⟩ | ⟨_, hmp, _⟩
    · rw [hmp]; exact hgs
    · rw [hmp]
      simpa [AckShape, Slice.len, Slice.cap] using hgs

/-- Every state reachable through `addAck` and `resetAckPool` has one of the
four shapes. -/
theorem AckReachable.shape (env : Env) (mp : ftmMemPool) (h : AckReachable env mp) :
    AckShape mp.ackpool := by
  induction h with
  | init => left; simp [initFtmMemPool, Slice.len, Slice.cap, Slice.make]
  | step mp mp1 ack r _ hstep ih => exact addAck_shape env mp mp1 ack r hstep ih
  | reset mp _ _ => left; simp [resetAckPool, Slice.len, Slice.cap, Slice.make]

/-- Every state reachable through `addAck` and `resetAckPool` has the invariant
of the ack pool. -/
theorem AckReachable.wf (env : Env) (mp : ftmMemPool) (h : AckReachable env mp) :
    AckpoolWF mp.ackpool := by
  induction h with
  | init => exact initFtmMemPool_wf.1
  | step mp mp1 ack r _ hstep ih =>
    cases ack with
    | none =>
      have : mp1 = mp := by
        unfold addAck at hstep
        simp only [Except.ok.injEq, Prod.mk.injEq] at hstep
        exact hstep.1.symm
      rw [this]
      exact ih
    | some A => exact addAck_wf env mp mp1 A r ih hstep
  | reset mp _ _ => exact initFtmMemPool_wf.2 mp

/-- In every state reachable through `addAck` and `resetAckPool`, an ack
stored in a slot carries the index of that slot. -/
theorem AckReachable.slots (env : Env) (mp : ftmMemPool) (h : AckReachable env mp) :
    ∀ (i : Nat) (b : MsgAck), mp.ackpool.elems[i]? = some (some b) → b.Index = i := by
  have hmake : ∀ (i : Nat) (b : MsgAck),
      (Slice.make 100 200 : Slice (Option MsgAck)).elems[i]? = some (some b) → b.Index = i := by
    intro i b hb
    simp only [Slice.make, List.getElem?_replicate] at hb
    split at hb <;> cases hb
  induction h with
  | init => exact hmake
  | step mp mp1 ack r hreach hstep ih =>
    cases ack with
    | none =>
      have : mp1 = mp := by
        unfold addAck at hstep
        simp only [Except.ok.injEq, Prod.mk.injEq] at hstep
        exact hstep.1.symm
      rw [this]
      exact ih
    | some A =>
      have hwf := AckReachable.wf env mp hreach
      obtain ⟨g, a, hg, ha, hcase⟩ := addAck_ok_cases env mp mp1 A r hstep
      have hltg : A.Index < g.len := (List.getElem?_eq_some_iff.mp ha).1
      have hgs : ∀ (i : Nat) (b : MsgAck), g.elems[i]? = some (some b) → b.Index = i := by
        intro i b hb
        by_cases h0 : A.Index = 0
        · rw [h0, growAckpool_zero] at hg
          cases hg
          exact hmake i b hb
        · have hig : i < g.len := (List.getElem?_eq_some_iff.mp hb).1
          by_cases hil : i < mp.ackpool.len
          · rw [growAckpool_preserves mp.ackpool g A.Index i hg h0 hil hig] at hb
            exact ih i b hb
          · rw [growAckpool_fresh mp.ackpool g A.Index i hg h0 hwf hltg (by omega) hig] at hb
            cases hb
      rcases hcase with ⟨_, hmp, _⟩ | ⟨_, hmp, _⟩
      · rw [hmp]; exact hgs
      · rw [hmp]
        intro i b hb
        simp only at hb
        by_cases hi : i = A.Index
        · subst hi
          simp only [Slice.len] at hltg
          rw [List.getElem?_set_self hltg] at hb
          cases hb
          rfl
        · rw [List.getElem?_set_ne (Ne.symm hi)] at hb
          exact hgs i b hb
  | reset mp _ _ => exact hmake


/-! ## Lemmas on the signature pool -/

/-- The loop of `resetDirBlockSigPool`, run over the part `mid` of a backing
array `pre ++ mid ++ post` that holds no nil pointer, leaves the survivors of
`mid` in their order, followed by one nil per removed entry. -/
theorem resetDirBlockSigPoolLoop_eq (height : Nat) :
    ∀ (mid pre post : List (Option MsgDirBlockSig)), (∀ x ∈ mid, x ≠ none) →
      resetDirBlockSigPoolLoop height mid.length pre.length (pre ++ (mid ++ post)) =
        .ok (pre ++ (mid.filter (survives height) ++
          (List.replicate (mid.length - (mid.filter (survives height)).length) none ++
            post))) := by
  intro mid
  induction mid with
  | nil =>
    intro pre post _
    simp [resetDirBlockSigPoolLoop]
  | cons x mid ih =>
    intro pre post hne
    have hmid : ∀ y ∈ mid, y ≠ none := fun y hy => hne y (List.mem_cons_of_mem _ hy)
    have hle : (mid.filter (survives height)).length ≤ mid.length := List.length_filter_le _ _
    cases x with
    | none => exact absurd rfl (hne none (List.mem_cons_self _ _))
    | some sig =>
      have hget : (pre ++ (some sig :: mid ++ post))[pre.length]? = some (some sig) := by
        rw [List.getElem?_append_right (le_refl _), Nat.sub_self, List.cons_append,
          List.getElem?_cons_zero]
      have htake : (pre ++ (some sig :: mid ++ post)).take pre.length = pre :=
        List.take_left' rfl
      have hdrop1 : (pre ++ (some sig :: mid ++ post)).drop (pre.length + 1) = mid ++ post := by
        rw [List.drop_append]
        rfl
      have hdrop2 : (pre ++ (some sig :: mid ++ post)).drop (pre.length + mid.length + 1) =
          post := by
        have : pre.length + mid.length + 1 = pre.length + (mid.length + 1) := by omega
        rw [this, List.drop_append]
        exact List.drop_left' (by simp)
      simp only [List.length_cons]
      unfold resetDirBlockSigPoolLoop
      rw [hget]
      simp only
      by_cases hrm : sig.DBHeight ≤ height
      · rw [if_pos hrm, htake, hdrop1, hdrop2, List.take_left' rfl]
        have hfil : (some sig :: mid).filter (survives height) =
            mid.filter (survives height) := by
          rw [List.filter_cons_of_neg]
          simp only [survives, decide_eq_true_eq]
          omega
        have := ih pre ([none] ++ post) hmid
        simp only [List.append_assoc] at this ⊢
        rw [this, hfil]
        have hk : mid.length + 1 - (mid.filter (survives height)).length =
            (mid.length - (mid.filter (survives height)).length) + 1 := by omega
        rw [hk, List.replicate_succ']
        simp only [List.append_assoc]
      · rw [if_neg hrm]
        have hfil : (some sig :: mid).filter (survives height) =
            some sig :: mid.filter (survives height) := by
          rw [List.filter_cons_of_pos]
          simp only [survives, decide_eq_true_eq]
          omega
        have := ih (pre ++ [some sig]) post hmid
        simp only [List.length_append, List.length_singleton, List.append_assoc,
          List.singleton_append] at this
        rw [List.cons_append, this, hfil]
        simp only [List.length_cons, Nat.add_sub_add_right, List.cons_append]

/-- What `resetDirBlockSigPool` does to a pool without nil pointers: the pool
as observed keeps its length and reads as the survivors in their order followed
by one absent entry per removed signature. -/
theorem resetDirBlockSigPool_eq (mp : ftmMemPool) (height : Nat)
    (hne : ∀ x ∈ mp.dirBlockSigs.elems, x ≠ none) :
    resetDirBlockSigPool mp height =
      .ok { mp with
        dirBlockSigs := ⟨mp.dirBlockSigs.elems.filter (survives height) ++
          List.replicate (mp.dirBlockSigs.elems.length -
            (mp.dirBlockSigs.elems.filter (survives height)).length) none,
          mp.dirBlockSigs.spare⟩ } := by
  have hle : (mp.dirBlockSigs.elems.filter (survives height)).length ≤
      mp.dirBlockSigs.elems.length := List.length_filter_le _ _
  have hloop := resetDirBlockSigPoolLoop_eq height mp.dirBlockSigs.elems []
    mp.dirBlockSigs.spare hne
  simp only [List.length_nil, List.nil_append] at hloop
  unfold resetDirBlockSigPool
  simp only [Slice.len, Slice.backing]
  rw [hloop]
  simp only
  rw [← List.append_assoc]
  have hlen : (mp.dirBlockSigs.elems.filter (survives height) ++
      List.replicate (mp.dirBlockSigs.elems.length -
        (mp.dirBlockSigs.elems.filter (survives height)).length) none).length =
      mp.dirBlockSigs.elems.length := by
    simp only [List.length_append, List.length_replicate]
    omega
  rw [List.take_left' hlen, List.drop_left' hlen]

/-! ## Claims on the precondition of the assembly and on the signature pool -/

/-- An ack of type `EndMinute10` whose index is not below the length of the ack
pool makes `assembleFollowerProcessList` panic at the read of the slot. -/
theorem assembleFollowerProcessList_panics (mp : ftmMemPool) (A : MsgAck)
    (hty : A.Typ = .EndMinute10) (hlen : mp.ackpool.len ≤ A.Index) :
    assembleFollowerProcessList mp A = .error .indexOutOfRange := by
  have hidx : mp.ackpool.index A.Index = .error .indexOutOfRange :=
    (Slice.index_error _ _ _).mpr ⟨hlen, rfl⟩
  unfold assembleFollowerProcessList
  simp only [hty, ne_eq, not_true_eq_false, if_false, hidx]

/-- Claim C11, evaluated at an index beyond the pool: on the freshly
initialised pool (length 100) the call of `assembleFollowerProcessList` with an
ack of type `EndMinute10` and index 100 does not return the error; the slot is
read before any test of the index and the read panics with an index out of
range. -/
theorem assembleFollowerProcessList_index_100_panics :
    assembleFollowerProcessList initFtmMemPool ⟨1, 5, 100, .EndMinute10, none, 0⟩ =
      .error .indexOutOfRange :=
  rfl

/-- Claim C12, evaluated on a pool of two signatures with heights 1 and 5 and
the height 3: the signature of height 1 is removed from the local slice only;
the pool as observed keeps the length 2 and reads as the survivor followed by
an absent entry. -/
theorem resetDirBlockSigPool_keeps_length :
    resetDirBlockSigPool (Sample.withSigs [some ⟨1, 0⟩, some ⟨5, 0⟩]) 3 =
      .ok (Sample.withSigs [some ⟨5, 0⟩, none]) ∧
    getDirBlockSigPool (Sample.withSigs [some ⟨5, 0⟩, none]) = [some ⟨5, 0⟩, none] ∧
    lenDirBlockSig (Sample.withSigs [some ⟨5, 0⟩, none]) = 2 :=
  ⟨rfl, rfl, rfl⟩

/-! ## Claims on the cleanup and on the relay -/

/-- Claim C13: after `cleanUpMemPool` the content pool is the prior content
pool without the entries whose key is the hash of an item of the process list
(an item that is present and has a hash): `haveMsg` is false for every such
hash, every other hash keeps its message, and the block pool, the ack pool, the
orphan pool, the signature pool and the request table are unchanged. -/
theorem cleanUpMemPool_spec (mp : ftmMemPool) (plItems : List (Option ProcessListItem)) :
    (cleanUpMemPool mp plItems).pool.entries =
      mp.pool.entries.filter (fun e => decide (e.1 ∉ plHashes plItems)) ∧
    (∀ item hash, some item ∈ plItems → item.MsgHash = some hash →
      haveMsg (cleanUpMemPool mp plItems) hash = false) ∧
    (∀ hash, (∀ item, some item ∈ plItems → item.MsgHash ≠ some hash) →
      getMsg (cleanUpMemPool mp plItems) hash = getMsg mp hash ∧
      haveMsg (cleanUpMemPool mp plItems) hash = haveMsg mp hash) ∧
    (cleanUpMemPool mp plItems).blockpool = mp.blockpool ∧
    (cleanUpMemPool mp plItems).ackpool = mp.ackpool ∧
    (cleanUpMemPool mp plItems).orphans = mp.orphans ∧
    (cleanUpMemPool mp plItems).dirBlockSigs = mp.dirBlockSigs ∧
    (cleanUpMemPool mp plItems).requested = mp.requested := by
  have hmem : ∀ hash, hash ∈ plHashes plItems ↔
      ∃ item, some item ∈ plItems ∧ item.MsgHash = some hash := by
    intro hash
    simp only [plHashes, List.mem_filterMap]
    constructor
    · rintro ⟨item, hitem, hb⟩
      cases item with
      | none => cases hb
      | some it => exact ⟨it, hitem, hb⟩
    · rintro ⟨it, hitem, hb⟩
      exact ⟨some it, hitem, hb⟩
  rw [cleanUpMemPool_eq]
  refine ⟨rfl, ?_, ?_, rfl, rfl, rfl, rfl, rfl⟩
  · intro item hash hitem hh
    have hin : hash ∈ plHashes plItems := (hmem hash).mpr ⟨item, hitem, hh⟩
    have : (GoMap.mk (mp.pool.entries.filter
        (fun e => decide (e.1 ∉ plHashes plItems)))).find? hash = none := by
      unfold GoMap.find?
      simp only [Option.map_eq_none', List.find?_eq_none, List.mem_filter, decide_eq_true_eq]
      rintro e ⟨_, he⟩ hk
      exact he (hk ▸ hin)
    simp only [haveMsg, GoMap.read]
    rw [this]
    rfl
  · intro hash hnot
    have hout : hash ∉ plHashes plItems := by
      intro hin
      obtain ⟨item, hitem, hh⟩ := (hmem hash).mp hin
      exact hnot item hitem hh
    have := GoMap.find?_filter_of_keep mp.pool.entries
      (fun e => decide (e.1 ∉ plHashes plItems)) hash
      (fun e _ hk => by simpa [hk] using hout)
    have hm : ({ entries := mp.pool.entries } : GoMap ShaHash (Option Message)) = mp.pool := rfl
    rw [hm] at this
    simp only [haveMsg, getMsg, GoMap.read]
    rw [this]
    exact ⟨rfl, rfl⟩

/-- Claim C13 at the scenario "cleanup": `P1` and `P2` are admitted, the
process list holds `h1` only; afterwards `h1` is not held and `h2` is. -/
theorem cleanUpMemPool_spec_example :
    haveMsg (cleanUpMemPool Sample.admitted
      [some ⟨some Sample.A0, some Sample.P1, some Sample.h1⟩, none,
        some ⟨some Sample.A1, none, none⟩]) Sample.h1 = false ∧
    haveMsg (cleanUpMemPool Sample.admitted
      [some ⟨some Sample.A0, some Sample.P1, some Sample.h1⟩, none,
        some ⟨some Sample.A1, none, none⟩]) Sample.h2 = true ∧
    getMsg (cleanUpMemPool Sample.admitted
      [some ⟨some Sample.A0, some Sample.P1, some Sample.h1⟩, none,
        some ⟨some Sample.A1, none, none⟩]) Sample.h2 = some Sample.P2 :=
  ⟨(cleanUpMemPool_spec Sample.admitted
      [some ⟨some Sample.A0, some Sample.P1, some Sample.h1⟩, none,
        some ⟨some Sample.A1, none, none⟩]).2.1
      ⟨some Sample.A0, some Sample.P1, some Sample.h1⟩ Sample.h1
      (List.mem_cons_self _ _) rfl,
    rfl, rfl⟩

/-- Claim C14: whatever the orders in which the two loops visit the entries of
the content pool and of the orphan pool, `relayStaleMessages` leaves both pools
empty, and the messages it pushes to the outbound channel are, as a multiset,
the messages stored in the content pool together with those stored in the
orphan pool; the other parts of the state are unchanged. -/
theorem relayStaleMessages_spec (mp : ftmMemPool)
    (poolOrder orphanOrder : List (ShaHash × Option Message))
    (hpool : poolOrder.Perm mp.pool.entries)
    (horphans : orphanOrder.Perm mp.orphans.entries) :
    (relayStaleMessages mp poolOrder orphanOrder).1.pool.entries = [] ∧
    (relayStaleMessages mp poolOrder orphanOrder).1.orphans.entries = [] ∧
    ((relayStaleMessages mp poolOrder orphanOrder).2 : Multiset (Option Message)) =
      (mp.pool.entries.map Prod.snd : Multiset (Option Message)) +
        (mp.orphans.entries.map Prod.snd : Multiset (Option Message)) ∧
    (relayStaleMessages mp poolOrder orphanOrder).1.blockpool = mp.blockpool ∧
    (relayStaleMessages mp poolOrder orphanOrder).1.ackpool = mp.ackpool ∧
    (relayStaleMessages mp poolOrder orphanOrder).1.dirBlockSigs = mp.dirBlockSigs ∧
    (relayStaleMessages mp poolOrder orphanOrder).1.requested = mp.requested := by
  have hempty : ∀ (order l : List (ShaHash × Option Message)), order.Perm l →
      l.filter (fun e => decide (e.1 ∉ order.map Prod.fst)) = [] := by
    intro order l hperm
    rw [List.filter_eq_nil_iff]
    intro e he
    have : e ∈ order := hperm.symm.subset he
    simp only [decide_eq_true_eq, not_not]
    exact List.mem_map_of_mem Prod.fst this
  unfold relayStaleMessages
  simp only [relayLoop_eq, List.nil_append]
  refine ⟨hempty _ _ hpool, hempty _ _ horphans, ?_, trivial, trivial, trivial, trivial⟩
  rw [Multiset.coe_add, Multiset.coe_eq_coe]
  exact List.Perm.append (hpool.map _) (horphans.map _)

/-- Claim C14 at a pool with two messages and one orphan, the content pool
visited in reverse order. -/
theorem relayStaleMessages_spec_witness :
    [(Sample.h2, some Sample.P2), (Sample.h1, some Sample.P1)].Perm
      Sample.stale.pool.entries ∧
    [(Sample.hx, some Sample.P1)].Perm Sample.stale.orphans.entries ∧
    relayStaleMessages Sample.stale
      [(Sample.h2, some Sample.P2), (Sample.h1, some Sample.P1)]
      [(Sample.hx, some Sample.P1)] =
      (initFtmMemPool, [some Sample.P2, some Sample.P1, some Sample.P1]) ∧
    ((relayStaleMessages Sample.stale
        [(Sample.h2, some Sample.P2), (Sample.h1, some Sample.P1)]
        [(Sample.hx, some Sample.P1)]).2 : Multiset (Option Message)) =
      (Sample.stale.pool.entries.map Prod.snd : Multiset (Option Message)) +
        (Sample.stale.orphans.entries.map Prod.snd : Multiset (Option Message)) :=
  ⟨List.Perm.swap _ _ _, List.Perm.refl _, rfl,
    (relayStaleMessages_spec Sample.stale
      [(Sample.h2, some Sample.P2), (Sample.h1, some Sample.P1)]
      [(Sample.hx, some Sample.P1)] (List.Perm.swap _ _ _) (List.Perm.refl _)).2.2.1⟩


/-! ## Claims on the request table -/

/-- Claim C15 fails as stated for `n = 2 ^ 32`: after `2 ^ 32` successive calls
of `addMissingMsg` for a hash that the table did not hold, the counter of its
record has wrapped around to 0. -/
theorem addMissingMsg_counter_wraps :
    (List.replicate (2 ^ 32) ((1 : Nat), (5 : Nat))).length = 2 ^ 32 ∧
    initFtmMemPool.requested.find? Sample.hx = none ∧
    (addMissingMsgs initFtmMemPool Sample.hx
      (List.replicate (2 ^ 32) (1, 5))).1.requested.find? Sample.hx =
      some ⟨⟨[⟨1, Sample.hx, 5⟩]⟩, 0, false⟩ := by
  refine ⟨List.length_replicate _ _, rfl, ?_⟩
  have hrep : List.replicate (2 ^ 32) ((1 : Nat), (5 : Nat)) =
      (1, 5) :: List.replicate 4294967295 (1, 5) := by
    rw [show (2 : Nat) ^ 32 = 4294967295 + 1 from by norm_num, List.replicate_succ]
  rw [hrep, addMissingMsgs_fresh initFtmMemPool Sample.hx 1 5 _ rfl]
  simp only [List.length_replicate]
  rw [show (4294967295 + 1) % 2 ^ 32 = 0 from by norm_num]
  exact GoMap.find?_last _ _ _ (fun e he => by cases he)

/-- Claim C15 as amended: for a table that does not hold `hash`, `n` successive
calls of `addMissingMsg` for `hash` (the first with `typ` and `height`, the
others with any kinds and heights, `n = rest.length + 1`) leave the table with
its former entries unchanged and one record for `hash` behind them; the counter
of that record is `n` modulo `2 ^ 32`, so it is `n` when `n < 2 ^ 32`; the record
bears the pull request of the first call and `Requested = false`; the first
call returns it with the counter 1 and the call number `k + 1` returns it with
the counter `k + 1` modulo `2 ^ 32`; the other parts of the state are
unchanged. -/
theorem addMissingMsgs_counts (mp : ftmMemPool) (hash : ShaHash) (typ height : Nat)
    (rest : List (Nat × Nat)) (hnew : mp.requested.find? hash = none) :
    (addMissingMsgs mp hash ((typ, height) :: rest)).1.requested.entries =
      mp.requested.entries ++
        [(hash, ⟨⟨[⟨typ, hash, (height : Int)⟩]⟩, (rest.length + 1) % 2 ^ 32, false⟩)] ∧
    (rest.length + 1 < 2 ^ 32 →
      (addMissingMsgs mp hash ((typ, height) :: rest)).1.requested.find? hash =
        some ⟨⟨[⟨typ, hash, (height : Int)⟩]⟩, rest.length + 1, false⟩) ∧
    (addMissingMsgs mp hash ((typ, height) :: rest)).2 =
      (List.range (rest.length + 1)).map
        (fun k => (⟨⟨[⟨typ, hash, (height : Int)⟩]⟩, (k + 1) % 2 ^ 32, false⟩ : reqMsg)) ∧
    (addMissingMsgs mp hash ((typ, height) :: rest)).2.head? =
      some ⟨⟨[⟨typ, hash, (height : Int)⟩]⟩, 1, false⟩ ∧
    (addMissingMsgs mp hash ((typ, height) :: rest)).1.pool = mp.pool ∧
    (addMissingMsgs mp hash ((typ, height) :: rest)).1.orphans = mp.orphans ∧
    (addMissingMsgs mp hash ((typ, height) :: rest)).1.blockpool = mp.blockpool ∧
    (addMissingMsgs mp hash ((typ, height) :: rest)).1.ackpool = mp.ackpool ∧
    (addMissingMsgs mp hash ((typ, height) :: rest)).1.dirBlockSigs = mp.dirBlockSigs := by
  have hpre : ∀ e ∈ mp.requested.entries, e.1 ≠ hash := by
    unfold GoMap.find? at hnew
    simp only [Option.map_eq_none', List.find?_eq_none, decide_eq_true_eq] at hnew
    exact hnew
  rw [addMissingMsgs_fresh mp hash typ height rest hnew]
  refine ⟨rfl, ?_, rfl, ?_, rfl, rfl, rfl, rfl, rfl⟩
  · intro hn
    simp only
    rw [Nat.mod_eq_of_lt hn]
    exact GoMap.find?_last _ _ _ hpre
  · simp only
    rw [List.range_succ_eq_map, List.map_cons, List.head?_cons]
    rfl

/-- The amended claim C15 at the empty table, for three calls with different
kinds and heights. -/
theorem addMissingMsgs_counts_witness :
    initFtmMemPool.requested.find? Sample.hx = none ∧
    addMissingMsgs initFtmMemPool Sample.hx [(1, 5), (2, 6), (3, 7)] =
      ({ initFtmMemPool with
          requested := ⟨[(Sample.hx, ⟨⟨[⟨1, Sample.hx, 5⟩]⟩, 3, false⟩)]⟩ },
        [⟨⟨[⟨1, Sample.hx, 5⟩]⟩, 1, false⟩, ⟨⟨[⟨1, Sample.hx, 5⟩]⟩, 2, false⟩,
          ⟨⟨[⟨1, Sample.hx, 5⟩]⟩, 3, false⟩]) ∧
    (addMissingMsgs initFtmMemPool Sample.hx [(1, 5), (2, 6), (3, 7)]).1.requested.entries =
      initFtmMemPool.requested.entries ++
        [(Sample.hx, ⟨⟨[⟨1, Sample.hx, ((5 : Nat) : Int)⟩]⟩,
          ([((2 : Nat), (6 : Nat)), (3, 7)].length + 1) % 2 ^ 32, false⟩)] :=
  ⟨rfl, rfl, (addMissingMsgs_counts initFtmMemPool Sample.hx 1 5 [(2, 6), (3, 7)] rfl).1⟩

/-! ## Claims on the admission of messages -/

/-- Claim C16 fails as stated at the bound: the pool `fullPool` holds exactly
`MAX_TX_POOL_SIZE` messages, the admission of `P1` under a new hash succeeds,
and the same admission repeated at once returns the error of a full pool. -/
theorem addMsg_twice_refused_at_bound :
    Sample.fullPool.pool.size = Sample.env.MAX_TX_POOL_SIZE ∧
    addMsg Sample.env Sample.fullPool (some Sample.P1) 5000 = (Sample.overfullPool, none) ∧
    addMsg Sample.env Sample.overfullPool (some Sample.P1) 5000 =
      (Sample.overfullPool, some "Transaction mem pool exceeds the limit.") := by
  have hsize : Sample.fullPool.pool.size = Sample.env.MAX_TX_POOL_SIZE := by
    simp [Sample.fullPool, GoMap.size, Sample.env]
  have hnew : Sample.fullPool.pool.find? 5000 = none := by
    simp only [Sample.fullPool, GoMap.find?, Option.map_eq_none', List.find?_eq_none, List.mem_map,
      List.mem_range, decide_eq_true_eq]
    rintro x ⟨i, hi, rfl⟩
    intro h
    have h5 : @Eq Nat i 5000 := h
    omega
  exact ⟨hsize, addMsg_at_bound Sample.env Sample.fullPool (some Sample.P1) 5000 hsize hnew⟩

/-- Claim C16 as amended: when `addMsg` of `msg` under `hash` succeeds, the same
call repeated at once leaves the state, and so the content pool and its size,
unchanged; the size is then the former size, plus one when `hash` was new; and
the repeated call returns success exactly when that size does not exceed
`MAX_TX_POOL_SIZE` and the error of a full pool exactly when it does. -/
theorem addMsg_twice (env : Env) (mp : ftmMemPool) (msg : Option Message) (hash : ShaHash)
    (hfirst : (addMsg env mp msg hash).2 = none) :
    (addMsg env (addMsg env mp msg hash).1 msg hash).1 = (addMsg env mp msg hash).1 ∧
    (addMsg env mp msg hash).1.pool.size =
      (if mp.pool.find? hash = none then mp.pool.size + 1 else mp.pool.size) ∧
    ((addMsg env (addMsg env mp msg hash).1 msg hash).2 = none ↔
      (addMsg env mp msg hash).1.pool.size ≤ env.MAX_TX_POOL_SIZE) ∧
    ((addMsg env (addMsg env mp msg hash).1 msg hash).2 =
        some "Transaction mem pool exceeds the limit." ↔
      (addMsg env mp msg hash).1.pool.size > env.MAX_TX_POOL_SIZE) := by
  have hle : ¬ mp.pool.size > env.MAX_TX_POOL_SIZE := by
    intro hc
    unfold addMsg at hfirst
    rw [if_pos hc] at hfirst
    cases hfirst
  have h1 : addMsg env mp msg hash = ({ mp with pool := mp.pool.put hash msg }, none) := by
    unfold addMsg
    rw [if_neg hle]
  rw [h1]
  simp only
  have hsize : (mp.pool.put hash msg).size =
      (if mp.pool.find? hash = none then mp.pool.size + 1 else mp.pool.size) := by
    by_cases hf : mp.pool.find? hash = none
    · rw [if_pos hf, GoMap.size_put_of_not_found _ _ _ hf]
    · rw [if_neg hf, GoMap.size_put_of_found _ _ _ hf]
  refine ⟨?_, hsize, ?_, ?_⟩
  · unfold addMsg
    simp only
    by_cases h2 : (mp.pool.put hash msg).size > env.MAX_TX_POOL_SIZE
    · rw [if_pos h2]
    · rw [if_neg h2]
      simp only [GoMap.put_put_self]
  · unfold addMsg
    simp only
    by_cases h2 : (mp.pool.put hash msg).size > env.MAX_TX_POOL_SIZE
    · rw [if_pos h2]
      exact ⟨fun hc => (by cases hc), fun hc => absurd h2 (by omega)⟩
    · rw [if_neg h2]
      exact ⟨fun _ => by omega, fun _ => rfl⟩
  · unfold addMsg
    simp only
    by_cases h2 : (mp.pool.put hash msg).size > env.MAX_TX_POOL_SIZE
    · rw [if_pos h2]
      exact ⟨fun _ => h2, fun _ => rfl⟩
    · rw [if_neg h2]
      exact ⟨fun hc => (by cases hc), fun hc => absurd hc h2⟩

/-- The amended claim C16 at the freshly initialised pool, for `P1` under
`h1`. -/
theorem addMsg_twice_witness :
    (addMsg Sample.env initFtmMemPool (some Sample.P1) Sample.h1).2 = none ∧
    (addMsg Sample.env (addMsg Sample.env initFtmMemPool (some Sample.P1) Sample.h1).1
      (some Sample.P1) Sample.h1).1 =
      (addMsg Sample.env initFtmMemPool (some Sample.P1) Sample.h1).1 ∧
    (addMsg Sample.env (addMsg Sample.env initFtmMemPool (some Sample.P1) Sample.h1).1
      (some Sample.P1) Sample.h1).2 = none :=
  ⟨rfl, (addMsg_twice Sample.env initFtmMemPool (some Sample.P1) Sample.h1 rfl).1, rfl⟩

/-- Claim C17: `addMsg` returns the error of a full pool exactly when the
content pool already holds more than `MAX_TX_POOL_SIZE` messages,
`addOrphanMsg` exactly when the orphan pool already holds more than
`MAX_ORPHAN_SIZE`, and `addBlockMsg` exactly when the block pool already holds
more than `MAX_BLK_POOL_SIZE`; a refused admission leaves the state unchanged;
an accepted one returns no error, changes only the pool concerned, stores the
message under the given key and leaves every other key as it was. -/
theorem admission_bounds (env : Env) (mp : ftmMemPool) (msg : Option Message)
    (hash : ShaHash) (tag : String) :
    (((addMsg env mp msg hash).2 = some "Transaction mem pool exceeds the limit." ↔
        mp.pool.size > env.MAX_TX_POOL_SIZE) ∧
      (mp.pool.size > env.MAX_TX_POOL_SIZE → (addMsg env mp msg hash).1 = mp) ∧
      (¬ mp.pool.size > env.MAX_TX_POOL_SIZE →
        (addMsg env mp msg hash).2 = none ∧
        (addMsg env mp msg hash).1 = { mp with pool := mp.pool.put hash msg } ∧
        (addMsg env mp msg hash).1.pool.find? hash = some msg ∧
        ∀ k, k ≠ hash → (addMsg env mp msg hash).1.pool.find? k = mp.pool.find? k)) ∧
    (((addOrphanMsg env mp msg hash).2 = some "Ophan mem pool exceeds the limit." ↔
        mp.orphans.size > env.MAX_ORPHAN_SIZE) ∧
      (mp.orphans.size > env.MAX_ORPHAN_SIZE → (addOrphanMsg env mp msg hash).1 = mp) ∧
      (¬ mp.orphans.size > env.MAX_ORPHAN_SIZE →
        (addOrphanMsg env mp msg hash).2 = none ∧
        (addOrphanMsg env mp msg hash).1 = { mp with orphans := mp.orphans.put hash msg } ∧
        (addOrphanMsg env mp msg hash).1.orphans.find? hash = some msg ∧
        ∀ k, k ≠ hash →
          (addOrphanMsg env mp msg hash).1.orphans.find? k = mp.orphans.find? k)) ∧
    (((addBlockMsg env mp msg tag).2 =
          some "Block mem pool exceeds the limit. Please restart." ↔
        mp.blockpool.size > env.MAX_BLK_POOL_SIZE) ∧
      (mp.blockpool.size > env.MAX_BLK_POOL_SIZE → (addBlockMsg env mp msg tag).1 = mp) ∧
      (¬ mp.blockpool.size > env.MAX_BLK_POOL_SIZE →
        (addBlockMsg env mp msg tag).2 = none ∧
        (addBlockMsg env mp msg tag).1 = { mp with blockpool := mp.blockpool.put tag msg } ∧
        (addBlockMsg env mp msg tag).1.blockpool.find? tag = some msg ∧
        ∀ k, k ≠ tag →
          (addBlockMsg env mp msg tag).1.blockpool.find? k = mp.blockpool.find? k)) := by
  refine ⟨?_, ?_, ?_⟩
  · unfold addMsg
    by_cases h : mp.pool.size > env.MAX_TX_POOL_SIZE
    · rw [if_pos h]
      exact ⟨⟨fun _ => h, fun _ => rfl⟩, fun _ => rfl, fun hn => absurd h hn⟩
    · rw [if_neg h]
      exact ⟨⟨fun hc => (by cases hc), fun hc => absurd hc h⟩, fun hc => absurd hc h,
        fun _ => ⟨rfl, rfl, GoMap.find?_put_self _ _ _,
          fun k hk => GoMap.find?_put_ne _ _ _ _ hk⟩⟩
  · unfold addOrphanMsg
    by_cases h : mp.orphans.size > env.MAX_ORPHAN_SIZE
    · rw [if_pos h]
      exact ⟨⟨fun _ => h, fun _ => rfl⟩, fun _ => rfl, fun hn => absurd h hn⟩
    · rw [if_neg h]
      exact ⟨⟨fun hc => (by cases hc), fun hc => absurd hc h⟩, fun hc => absurd hc h,
        fun _ => ⟨rfl, rfl, GoMap.find?_put_self _ _ _,
          fun k hk => GoMap.find?_put_ne _ _ _ _ hk⟩⟩
  · unfold addBlockMsg
    by_cases h : mp.blockpool.size > env.MAX_BLK_POOL_SIZE
    · rw [if_pos h]
      exact ⟨⟨fun _ => h, fun _ => rfl⟩, fun _ => rfl, fun hn => absurd h hn⟩
    · rw [if_neg h]
      exact ⟨⟨fun hc => (by cases hc), fun hc => absurd hc h⟩, fun hc => absurd hc h,
        fun _ => ⟨rfl, rfl, GoMap.find?_put_self _ _ _,
          fun k hk => GoMap.find?_put_ne _ _ _ _ hk⟩⟩

/-! ## Claims on the directory block accessor -/

/-- Claim C18 fails as stated: a directory block message with header height 5
stored under the tag "tip" is not returned for the height 5, and a directory
block message with header height 9 stored under the tag "5" is returned for
the height 5. -/
theorem getDirBlock_ignores_header :
    getDirBlock (Sample.withBlocks [("tip", some ⟨.CmdDirBlock, 5, 1⟩)]) 5 = none ∧
    getDirBlock (Sample.withBlocks [("5", some ⟨.CmdDirBlock, 9, 1⟩)]) 5 = some ⟨9, 1⟩ :=
  ⟨rfl, rfl⟩

/-- Claim C18 as amended: `getDirBlock` of `h` looks the entry up under the
decimal representation of `h` and neither scans the pool nor reads the header:
it returns the directory block of the message stored under that tag when that
message is a directory block message, whatever its header height; it returns
nothing when no directory block message is stored under that tag; and it gives
the same result on any two pools that hold the same entry under that tag.
Hence, for a block pool with one entry per tag in which a directory block
message is stored under the decimal representation of `h` exactly when its
header height is `h`, it returns a directory block whose header carries the
height `h` whenever the pool holds a directory block message with that header
height, and returns nothing when no directory block message has the header
height `h`. -/
theorem getDirBlock_by_tag (mp : ftmMemPool) (h : Nat) :
    (∀ m : Message, mp.blockpool.find? (Nat.repr h) = some (some m) →
      m.command = .CmdDirBlock → getDirBlock mp h = some m.DBlk) ∧
    ((∀ m : Message, mp.blockpool.find? (Nat.repr h) = some (some m) →
      m.command ≠ .CmdDirBlock) → getDirBlock mp h = none) ∧
    (∀ mp1 : ftmMemPool, mp1.blockpool.find? (Nat.repr h) = mp.blockpool.find? (Nat.repr h) →
      getDirBlock mp1 h = getDirBlock mp h) ∧
    ((mp.blockpool.entries.map Prod.fst).Nodup →
      (∀ (tag : String) (m : Message), (tag, some m) ∈ mp.blockpool.entries →
        m.command = .CmdDirBlock → (tag = Nat.repr h ↔ m.height = h)) →
      ((∃ (tag : String) (m : Message), (tag, some m) ∈ mp.blockpool.entries ∧
          m.command = .CmdDirBlock ∧ m.height = h) →
        ∃ b, getDirBlock mp h = some b ∧ b.DBHeight = h) ∧
      ((∀ (tag : String) (m : Message), (tag, some m) ∈ mp.blockpool.entries →
          m.command = .CmdDirBlock → m.height ≠ h) →
        getDirBlock mp h = none)) := by
  have hfound : ∀ (mp0 : ftmMemPool) (m : Message),
      mp0.blockpool.find? (Nat.repr h) = some (some m) → m.command = .CmdDirBlock →
      getDirBlock mp0 h = some m.DBlk := by
    intro mp0 m hfind hcmd
    unfold getDirBlock GoMap.read
    rw [hfind]
    simp [hcmd]
  have hnone : ∀ mp0 : ftmMemPool,
      (∀ m : Message, mp0.blockpool.find? (Nat.repr h) = some (some m) →
        m.command ≠ .CmdDirBlock) → getDirBlock mp0 h = none := by
    intro mp0 hno
    unfold getDirBlock GoMap.read
    cases hf : mp0.blockpool.find? (Nat.repr h) with
    | none => rfl
    | some v =>
      cases v with
      | none => rfl
      | some m =>
        have := hno m hf
        simp [this]
  refine ⟨hfound mp, hnone mp, ?_, ?_⟩
  · intro mp1 heq
    unfold getDirBlock GoMap.read
    rw [heq]
  · intro hkeys hconv
    constructor
    · rintro ⟨tag, m, hmem, hcmd, hh⟩
      have htag : tag = Nat.repr h := (hconv tag m hmem hcmd).mpr hh
      rw [htag] at hmem
      have hfind := GoMap.find?_of_mem mp.blockpool (Nat.repr h) (some m) hkeys hmem
      exact ⟨m.DBlk, hfound mp m hfind hcmd, hh⟩
    · intro hno
      apply hnone mp
      intro m hfind hcmd
      have hmem := GoMap.mem_of_find? _ _ _ hfind
      exact hno _ m hmem hcmd ((hconv _ m hmem hcmd).mp rfl)

/-- The amended claim C18 at a block pool with a directory block of height 5
under the tag "5" and a factoid block of height 5 under the tag "f5": the
pool has one entry per tag and follows the convention for the height 5, and
the directory block of height 5 is returned. -/
theorem getDirBlock_by_tag_witness :
    ((Sample.withBlocks [("f5", some ⟨.CmdFBlock, 5, 2⟩),
      ("5", some ⟨.CmdDirBlock, 5, 1⟩)]).blockpool.entries.map Prod.fst).Nodup ∧
    getDirBlock (Sample.withBlocks [("f5", some ⟨.CmdFBlock, 5, 2⟩),
      ("5", some ⟨.CmdDirBlock, 5, 1⟩)]) 5 = some ⟨5, 1⟩ ∧
    ((∃ (tag : String) (m : Message),
        (tag, some m) ∈ (Sample.withBlocks [("f5", some ⟨.CmdFBlock, 5, 2⟩),
          ("5", some ⟨.CmdDirBlock, 5, 1⟩)]).blockpool.entries ∧
        m.command = .CmdDirBlock ∧ m.height = 5) →
      ∃ b, getDirBlock (Sample.withBlocks [("f5", some ⟨.CmdFBlock, 5, 2⟩),
        ("5", some ⟨.CmdDirBlock, 5, 1⟩)]) 5 = some b ∧ b.DBHeight = 5) ∧
    (∀ mp1 : ftmMemPool,
      mp1.blockpool.find? (Nat.repr 5) =
        (Sample.withBlocks [("f5", some ⟨.CmdFBlock, 5, 2⟩),
          ("5", some ⟨.CmdDirBlock, 5, 1⟩)]).blockpool.find? (Nat.repr 5) →
      getDirBlock mp1 5 = getDirBlock (Sample.withBlocks [("f5", some ⟨.CmdFBlock, 5, 2⟩),
        ("5", some ⟨.CmdDirBlock, 5, 1⟩)]) 5) :=
  ⟨by decide, rfl,
    ((getDirBlock_by_tag (Sample.withBlocks [("f5", some ⟨.CmdFBlock, 5, 2⟩),
      ("5", some ⟨.CmdDirBlock, 5, 1⟩)]) 5).2.2.2 (by decide)
      (by
        intro tag m hmem hcmd
        simp only [Sample.withBlocks, List.mem_cons, Prod.mk.injEq, Option.some.injEq,
          List.mem_singleton, List.not_mem_nil, or_false] at hmem
        rcases hmem with ⟨_, hm⟩ | ⟨ht, hm⟩
        · subst hm
          cases hcmd
        · subst hm ht
          exact ⟨fun _ => rfl, fun _ => rfl⟩)).1,
    (getDirBlock_by_tag (Sample.withBlocks [("f5", some ⟨.CmdFBlock, 5, 2⟩),
      ("5", some ⟨.CmdDirBlock, 5, 1⟩)]) 5).2.2.1⟩

/-! ## Claims on the reachable shapes of the ack pool -/

/-- Claim C20: in every state reachable from `initFtmMemPool` through calls of
`addAck` and of `resetAckPool` that complete, the length and the capacity of
the ack pool are one of `(100, 200)`, `(150, 200)`, `(200, 200)` and
`(400, 400)`; `addAck` of an ack with an index of 400 or more does not complete
(it panics); and every ack stored in a slot carries the index of that slot,
which is below 400. -/
theorem AckReachable_shapes (env : Env) (mp : ftmMemPool) (h : AckReachable env mp) :
    ((mp.ackpool.len, mp.ackpool.cap) ∈ [(100, 200), (150, 200), (200, 200), (400, 400)]) ∧
    (∀ A : MsgAck, 400 ≤ A.Index → ∃ e, addAck env mp (some A) = .error e) ∧
    (∀ (i : Nat) (b : MsgAck), mp.ackpool.elems[i]? = some (some b) →
      b.Index = i ∧ b.Index < 400) := by
  have hs := AckReachable.shape env mp h
  refine ⟨?_, ?_, ?_⟩
  · simp only [List.mem_cons, Prod.mk.injEq, List.mem_singleton, List.not_mem_nil, or_false]
    exact hs
  · intro A hA
    by_cases hfull : A.Index = mp.ackpool.len ∧ mp.ackpool.cap = mp.ackpool.len
    · refine ⟨_, addAck_panics_full env mp A (by omega) hfull.1 hfull.2 ?_⟩
      rcases hs with hs | hs | hs | hs <;> omega
    · refine ⟨_, addAck_panics_outside env mp A (by omega) ?_ ?_ ?_⟩
      · rcases hs with hs | hs | hs | hs <;> omega
      · rcases hs with hs | hs | hs | hs <;> omega
      · rcases hs with hs | hs | hs | hs <;> omega
  · intro i b hi
    have hlt : i < mp.ackpool.len := (List.getElem?_eq_some_iff.mp hi).1
    have hidx := AckReachable.slots env mp h i b hi
    refine ⟨hidx, ?_⟩
    rcases hs with hs | hs | hs | hs <;> omega

/-- Claim C20 at the state reached by `addAck` of an ack with index 200 on the
freshly initialised pool. -/
theorem AckReachable_shapes_witness :
    AckReachable Sample.env Sample.grown400 ∧
    (Sample.grown400.ackpool.len, Sample.grown400.ackpool.cap) = (400, 400) ∧
    addAck Sample.env Sample.grown400 (some (Sample.eom 400)) =
      .error .sliceBoundsOutOfRange ∧
    (∀ A : MsgAck, 400 ≤ A.Index →
      ∃ e, addAck Sample.env Sample.grown400 (some A) = .error e) :=
  ⟨AckReachable.step initFtmMemPool Sample.grown400 (some (Sample.eom 200)) none
      AckReachable.init rfl,
    rfl, rfl,
    (AckReachable_shapes Sample.env Sample.grown400
      (AckReachable.step initFtmMemPool Sample.grown400 (some (Sample.eom 200)) none
        AckReachable.init rfl)).2.1⟩


/-! ## Claims on the locking -/

/-- Without other callers in between, `addMissingMsg` is its first lock section
followed, when the lookup found nothing, by its second. -/
theorem addMissingMsg_sections (mp : ftmMemPool) (typ : Nat) (hash : ShaHash) (height : Nat) :
    addMissingMsg mp typ hash height =
      match addMissingMsgLookup mp hash with
      | (mp1, some m) => (mp1, m)
      | (mp1, none) => addMissingMsgStore mp1 typ hash height := by
  unfold addMissingMsg addMissingMsgLookup addMissingMsgStore
  cases mp.requested.find? hash <;> rfl

/-- Claim C19, evaluated on two concurrent calls of `addMissingMsg` for one
hash on the empty table, each lock section taken as atomic: the first section
of the first call and then of the second call both find no record (the read
lock is released between the lookup and the store); the second section of the
first call and then of the second call both store a fresh record. The table
then holds one record with `TimesMissed = 1`, and each caller was handed a
record with `TimesMissed = 1`, whereas the same two calls one after the other
leave `TimesMissed = 2`. -/
theorem addMissingMsg_interleaved_loses_a_miss :
    ∃ (s1 s2 s3 s4 : ftmMemPool) (ra rb : reqMsg),
      addMissingMsgLookup initFtmMemPool Sample.hx = (s1, none) ∧
      addMissingMsgLookup s1 Sample.hx = (s2, none) ∧
      addMissingMsgStore s2 1 Sample.hx 5 = (s3, ra) ∧
      addMissingMsgStore s3 2 Sample.hx 6 = (s4, rb) ∧
      s4.requested.entries = [(Sample.hx, ⟨⟨[⟨2, Sample.hx, 6⟩]⟩, 1, false⟩)] ∧
      ra.TimesMissed = 1 ∧ rb.TimesMissed = 1 ∧
      (addMissingMsgs initFtmMemPool Sample.hx [(1, 5), (2, 6)]).1.requested.entries =
        [(Sample.hx, ⟨⟨[⟨1, Sample.hx, 5⟩]⟩, 2, false⟩)] :=
  ⟨_, _, _, _, _, _, rfl, rfl, rfl, rfl, rfl, rfl, rfl, rfl⟩

end FactomCode
